import Mathlib

/-!
Path-pattern matcher of `lestrrat-go/mux`.

A shallow embedding of `internal/pathmatch` (`matcher.go`, `tokenizer.go`,
`token.go`, `lexer.go`) and the properties checked against it.

Modelling conventions.

* A Go `string` is modelled as the list of its code units, `Str = List Char`.
  The matcher only compares units for equality and looks for the unit `/`,
  so on well-formed UTF-8 text the byte-level operations of the source
  (`strings.TrimPrefix`, `strings.IndexByte`, slicing) coincide with the
  list operations used here. The tokenizer reads runes; its input is the
  list of runes `strings.Reader.ReadRune` yields (an invalid byte is the
  rune U+FFFD, exactly as in Go).
* `strings.IndexByte` returns `-1` for "not found"; here that is `none`.
* A Go slice expression panics when its bounds are out of range; slices are
  modelled by `sliceFrom`/`sliceTo`, which return `none` in that case, and a
  function that may panic returns an `Option` whose `none` is the panic.
* A Go `map[string]string` is modelled as an association list with unique
  keys (`Values`); assignment `mv[k] = v` is `Values.set`.
* A compiled `*regexp.Regexp` (standard library, not part of the repository)
  is modelled by its `FindStringIndex` function.
-/

namespace pathmatch

/-- A Go string: the sequence of its code units. -/
abbrev Str := List Char

deriving instance DecidableEq for Except

/-! ## Go library operations used by the source -/

/-- The function `strings.TrimPrefix(s, pre)`: `s` without the leading `pre`,
or `s` itself when `s` does not start with `pre`. -/
def TrimPrefix (s pre : Str) : Str :=
  if pre.isPrefixOf s then s.drop pre.length else s

/-- The function `strings.IndexByte(s, c)`: index of the first `c` in `s`;
`none` stands for Go's `-1`. -/
def IndexByte : Str → Char → Option Nat
  | [], _ => none
  | x :: xs, c => if x = c then some 0 else (IndexByte xs c).map (· + 1)

/-- Go slice expression `s[lo:]`; `none` is the out-of-range panic. -/
def sliceFrom (s : Str) (lo : Nat) : Option Str :=
  if lo ≤ s.length then some (s.drop lo) else none

/-- Go slice expression `s[:hi]`; `none` is the out-of-range panic. -/
def sliceTo (s : Str) (hi : Nat) : Option Str :=
  if hi ≤ s.length then some (s.take hi) else none

/-- A compiled regular expression, seen through the one method the matcher
calls: `FindStringIndex s` is `none` for Go's `nil` (no match) and
`some (b, e)` for the two-element slice `[b e]` of the leftmost match. -/
structure Regexp where
  FindStringIndex : Str → Option (Nat × Nat)

/-! ## `matcher.go` -/

/-- The type `Values` (`map[string]string`): association list, keys unique. -/
abbrev Values := List (Str × Str)

/-- Map lookup `v[k]` with the comma-ok flag: `none` when `k` is absent. -/
def Values.find (v : Values) (k : Str) : Option Str :=
  match v with
  | [] => none
  | (k1, x) :: rest => if k1 = k then some x else Values.find rest k

/-- Map assignment `v[k] = x`: any earlier entry for `k` is replaced. -/
def Values.set (v : Values) (k x : Str) : Values :=
  (k, x) :: v.filter (fun e => decide (e.1 ≠ k))

/-- The method `Values.Get`. -/
def Values.Get (v : Values) (s : Str) : Str :=
  match v.find s with
  | none => []
  | some ret => ret

/-- The errors built with `fmt.Errorf` in `matcher.go`. -/
inductive MatchError where
  /-- The error "failed to match literal pattern %q". -/
  | literal (c : Str)
  /-- The error "failed to match segment %q". -/
  | segment (name : Str)
  /-- The error "failed to match pattern %q". -/
  | pattern (name : Str)
  /-- The error "failed to match input: %w", wrapping a consumer error. -/
  | input (cause : MatchError)
  /-- The error "failed to match input (trailing input)". -/
  | trailing
  deriving DecidableEq, Repr

/-- The implementations of the `consumer` interface. -/
inductive consumer where
  | literalConsumer (c : Str)
  | segmentConsumer (name : Str)
  | regexpConsumer (name : Str) (pattern : Regexp)

/-- What one `Consume` call leaves behind: the returned string, the returned
error (`none` for `nil`) and the capture map after the call. -/
structure Consumed where
  rest : Str
  err : Option MatchError
  mv : Values
  deriving DecidableEq, Repr

/-- The method `literalConsumer.Consume`. -/
def literalConsumer.Consume (c : Str) (s : Str) (mv : Values) : Option Consumed :=
  let ps := TrimPrefix s c
  if ps = s then
    some ⟨s, some (MatchError.literal c), mv⟩
  else
    some ⟨ps, none, mv⟩

/-- The method `segmentConsumer.Consume`. -/
def segmentConsumer.Consume (name : Str) (s : Str) (mv : Values) : Option Consumed :=
  match IndexByte s '/' with
  | none =>
    if s.length > 0 then
      some ⟨[], none, mv.set name s⟩
    else
      some ⟨s, some (MatchError.segment name), mv⟩
  | some i =>
    match sliceTo s i, sliceFrom s i with
    | some val, some s1 => some ⟨s1, none, mv.set name val⟩
    | _, _ => none

/-- The method `regexpConsumer.Consume`. -/
def regexpConsumer.Consume (name : Str) (pattern : Regexp) (s : Str) (mv : Values) :
    Option Consumed :=
  match pattern.FindStringIndex s with
  | none => some ⟨s, some (MatchError.pattern name), mv⟩
  | some loc =>
    match sliceFrom s loc.2 with
    | none => none
    | some tl =>
      match IndexByte tl '/' with
      | none => some ⟨[], none, mv.set name s⟩
      | some i =>
        match sliceTo s (i + loc.2), sliceFrom s (i + loc.2) with
        | some val, some s1 => some ⟨s1, none, mv.set name val⟩
        | _, _ => none

/-- Dynamic dispatch of `Consume` over the three consumers. -/
def consumer.Consume (c : consumer) (s : Str) (mv : Values) : Option Consumed :=
  match c with
  | .literalConsumer t => literalConsumer.Consume t s mv
  | .segmentConsumer name => segmentConsumer.Consume name s mv
  | .regexpConsumer name pattern => regexpConsumer.Consume name pattern s mv

/-- The type `Matcher`. -/
structure Matcher where
  consumers : List consumer

/-- The `for` loop of `Matcher.Match`: runs the consumers in order on the
cursor `s`, stops at the first error (returned as `Except.error`, wrapped),
and leaves the loop as soon as the cursor is empty. On normal exit it yields
the cursor and the capture map. -/
def matchLoop : List consumer → Str → Values →
    Option (Except MatchError (Str × Values))
  | [], s, mv => some (.ok (s, mv))
  | c :: cs, s, mv =>
    match c.Consume s mv with
    | none => none
    | some r =>
      match r.err with
      | some e => some (.error (MatchError.input e))
      | none =>
        if r.rest = [] then some (.ok (r.rest, r.mv))
        else matchLoop cs r.rest r.mv

/-- The method `Matcher.Match`; the outer `none` is a runtime panic. -/
def Matcher.Match (p : Matcher) (s : Str) : Option (Except MatchError Values) :=
  match matchLoop p.consumers s [] with
  | none => none
  | some (.error e) => some (.error e)
  | some (.ok (s1, mv)) =>
    if s1 ≠ [] then some (.error MatchError.trailing) else some (.ok mv)

/-! ## `tokenizer.go` -/

/-- The constant `utf8.RuneError` (U+FFFD). -/
def RuneError : Char := Char.ofNat 0xFFFD

/-- The function `unicode.IsSpace`: the Latin-1 spaces
`\t \n \v \f \r`, space, U+0085, U+00A0, and above Latin-1 the code points
with the `White_Space` property. -/
def IsSpace (r : Char) : Bool :=
  let n := r.toNat
  if n ≤ 0xFF then
    n = 0x09 || n = 0x0A || n = 0x0B || n = 0x0C || n = 0x0D || n = 0x20 ||
      n = 0x85 || n = 0xA0
  else
    n = 0x1680 || (0x2000 ≤ n && n ≤ 0x200A) || n = 0x2028 || n = 0x2029 ||
      n = 0x202F || n = 0x205F || n = 0x3000

/-- Token kinds: `tEOF` of `tokenizer.go` and the kinds the grammar file
declares (`tOpenBrace`, `tCloseBrace`, `tColon`, `tLiteral`). -/
inductive TokenKind where
  | tEOF
  | tOpenBrace
  | tCloseBrace
  | tColon
  | tLiteral
  deriving DecidableEq, Repr

/-- The type `position`. -/
structure position where
  line : Int
  col : Int
  deriving DecidableEq, Repr

/-- The type `tokenizer`. The field `src` holds the runes the
`strings.Reader` has not yet delivered. -/
structure tokenizer where
  src : List Char
  expectRegexp : Bool
  eof : Bool
  offset : Int
  lineHead : Int
  line : Int
  buf : Char
  deriving DecidableEq, Repr

/-- The function `newTokenizer`. -/
def newTokenizer (s : Str) : tokenizer :=
  { src := s, expectRegexp := false, eof := false, offset := 0, lineHead := 0,
    line := 0, buf := RuneError }

/-- The method `tokenizer.peek`: the rune returned and the tokenizer after
the call. -/
def tokenizer.peek (t : tokenizer) : Char × tokenizer :=
  if t.eof then
    (RuneError, t)
  else if t.buf = RuneError then
    match t.src with
    | [] => (RuneError, { t with eof := true })
    | r :: rest => (r, { t with src := rest, buf := r })
  else
    (t.buf, t)

/-- The method `tokenizer.next`. -/
def tokenizer.next (t : tokenizer) : tokenizer :=
  if t.eof then t
  else { t with offset := t.offset + 1, buf := RuneError }

/-- The method `tokenizer.position`. -/
def tokenizer.position (t : tokenizer) : position :=
  { line := t.line + 1, col := t.offset - t.lineHead + 1 }

/-- The `for` loop of `tokenizer.skipWhitespace`, with an iteration bound;
`none` means the bound was reached before the loop returned. -/
def tokenizer.skipWhitespaceLoop : Nat → tokenizer → Option tokenizer
  | 0, _ => none
  | fuel + 1, t =>
    let pr := t.peek
    if pr.1 = RuneError ∨ IsSpace pr.1 = false then some pr.2
    else tokenizer.skipWhitespaceLoop fuel pr.2.next

/-- The method `tokenizer.skipWhitespace`. Every iteration that does not
return takes one rune out of `buf` or `src`, so `src.length + 2` iterations
always reach the `return`. -/
def tokenizer.skipWhitespace (t : tokenizer) : Option tokenizer :=
  tokenizer.skipWhitespaceLoop (t.src.length + 2) t

/-- The `LOOP` of `tokenizer.literal`, with an iteration bound; `b` is the
`strings.Builder`. -/
def tokenizer.literalLoop : Nat → tokenizer → Str → Option (Str × tokenizer)
  | 0, _, _ => none
  | fuel + 1, t, b =>
    let pr := t.peek
    if pr.2.expectRegexp then
      if pr.1 = '}' ∨ pr.1 = RuneError then some (b, pr.2)
      else tokenizer.literalLoop fuel pr.2.next (b ++ [pr.1])
    else
      if pr.1 = ':' ∨ pr.1 = '{' ∨ pr.1 = '}' ∨ pr.1 = RuneError then some (b, pr.2)
      else tokenizer.literalLoop fuel pr.2.next (b ++ [pr.1])

/-- The method `tokenizer.literal`. -/
def tokenizer.literal (t : tokenizer) : Option (Str × tokenizer) :=
  match tokenizer.literalLoop (t.src.length + 2) t [] with
  | none => none
  | some (b, t1) => some (b, { t1 with expectRegexp := false })

/-- The errors `Token` can return: only `io.EOF`. -/
inductive TokError where
  | EOF
  deriving DecidableEq, Repr

/-- The four results of `tokenizer.Token` (named as in `tokenizer_test.go`);
`Lit` is `none` for a nil interface value, `Err` is `none` for a nil error. -/
structure TokReturn where
  Tok : TokenKind
  Lit : Option Str
  Pos : position
  Err : Option TokError
  deriving DecidableEq, Repr

/-- The method `tokenizer.Token`: its results and the tokenizer after the
call (`none` only if a loop bound was reached). -/
def tokenizer.Token (t : tokenizer) : Option (TokReturn × tokenizer) :=
  match t.skipWhitespace with
  | none => none
  | some t1 =>
    let pos := t1.position
    let pr := t1.peek
    if pr.1 = RuneError then
      some (⟨.tEOF, none, pos, some .EOF⟩, pr.2)
    else if pr.1 = '{' then
      some (⟨.tOpenBrace, some ['{'], pos, none⟩, pr.2.next)
    else if pr.1 = '}' then
      some (⟨.tCloseBrace, some ['}'], pos, none⟩, pr.2.next)
    else if pr.1 = ':' then
      some (⟨.tColon, some [':'], pos, none⟩, { pr.2.next with expectRegexp := true })
    else
      match pr.2.literal with
      | none => none
      | some (lit, t2) => some (⟨.tLiteral, some lit, pos, none⟩, t2)

/-- The successive results of `Token` up to and including the first one that
carries an error, at most `n` of them. -/
def tokenizer.Tokens : Nat → tokenizer → Option (List TokReturn)
  | 0, _ => some []
  | n + 1, t =>
    match t.Token with
    | none => none
    | some (r, t1) =>
      match r.Err with
      | some _ => some [r]
      | none => (tokenizer.Tokens n t1).map (r :: ·)

/-! ## `lexer.go` and `token.go` -/

/-- The type `yyToken`. -/
structure yyToken where
  tok : TokenKind
  lit : Option Str
  pos : position
  deriving DecidableEq, Repr

/-- The type `lexer`, without the error channel and the cancellation signal
(errors are returned by value here). -/
structure lexer where
  tokenizer : tokenizer
  recentLit : Option Str
  recentPos : position
  deriving DecidableEq, Repr

/-- The function `newLexer`. -/
def newLexer (s : Str) : lexer :=
  { tokenizer := newTokenizer s, recentLit := none, recentPos := ⟨0, 0⟩ }

/-- The method `lexer.Lex`: `some tk` when a token is handed to the parser,
`none` when the return value is `-1` or `0` (both end the token stream of a
yacc parser). The outer `none` is a reached loop bound. -/
def lexer.Lex (l : lexer) : Option (Option yyToken × lexer) :=
  match l.tokenizer.Token with
  | none => none
  | some (r, t1) =>
    match r.Err with
    | some _ => some (none, { l with tokenizer := t1 })
    | none =>
      if r.Tok = .tEOF then some (none, { l with tokenizer := t1 })
      else
        some (some ⟨r.Tok, r.Lit, r.Pos⟩,
          { tokenizer := t1, recentLit := r.Lit, recentPos := r.Pos })

/-- The tokens `Lex` hands over until it first reports the end of the
stream, at most `n` of them. -/
def lexer.tokens : Nat → lexer → Option (List yyToken)
  | 0, _ => none
  | n + 1, l =>
    match l.Lex with
    | none => none
    | some (none, _) => some []
    | some (some tk, l1) => (lexer.tokens n l1).map (tk :: ·)

/-- The parsed pattern segments of `token.go`: `Literal`, `LiteralPattern`
and `RegexpPattern`. -/
inductive Expression where
  | Literal (Lit : Str)
  | LiteralPattern (Name : Str)
  | RegexpPattern (Name : Str) (Pattern : Str)
  deriving DecidableEq, Repr

/-- The error of `lexer.makeError`: position and text of the token read
last. -/
structure SyntaxError where
  pos : position
  lit : Option Str
  deriving DecidableEq, Repr

/-- Modelled from the spec: the grammar of the generated parser
(`parser.go`, made from `parser.go.y`), which is not among the sources.
Specification section 4.2: `pattern := segment*`,
`segment := LITERAL | '{' NAME ( ':' REGEXTEXT )? '}'`; a bare literal
becomes `Literal`, `{NAME}` becomes `LiteralPattern`, `{NAME:REGEXTEXT}`
becomes `RegexpPattern`, and an unexpected token is a parse error carrying
the position and text of the offending token (of the last token read when
the stream ends too early). No backtracking: each token is used once. -/
def parseSegments : List yyToken → Except SyntaxError (List Expression)
  | [] => .ok []
  | t :: ts =>
    match t.tok with
    | .tLiteral => (parseSegments ts).map (Expression.Literal (t.lit.getD []) :: ·)
    | .tOpenBrace =>
      match ts with
      | [] => .error ⟨t.pos, t.lit⟩
      | n :: ts1 =>
        if n.tok ≠ .tLiteral then .error ⟨n.pos, n.lit⟩
        else
          match ts1 with
          | [] => .error ⟨n.pos, n.lit⟩
          | c :: ts2 =>
            match c.tok with
            | .tCloseBrace =>
              (parseSegments ts2).map (Expression.LiteralPattern (n.lit.getD []) :: ·)
            | .tColon =>
              match ts2 with
              | [] => .error ⟨c.pos, c.lit⟩
              | r :: ts3 =>
                if r.tok ≠ .tLiteral then .error ⟨r.pos, r.lit⟩
                else
                  match ts3 with
                  | [] => .error ⟨r.pos, r.lit⟩
                  | e :: ts4 =>
                    if e.tok = .tCloseBrace then
                      (parseSegments ts4).map
                        (Expression.RegexpPattern (n.lit.getD []) (r.lit.getD []) :: ·)
                    else .error ⟨e.pos, e.lit⟩
            | _ => .error ⟨c.pos, c.lit⟩
    | _ => .error ⟨t.pos, t.lit⟩

/-- Modelled from the spec: the function `parse` of the generated parser,
which is not among the sources. It runs the grammar over the tokens of
`lexer.Lex` (every `Lex` call that yields a token takes at least one rune,
so `s.length + 1` calls reach the end of the stream) and returns the
descriptor sequence or the first error. -/
def parse (s : Str) : Option (Except SyntaxError (List Expression)) :=
  ((newLexer s).tokens (s.length + 1)).map parseSegments

/-- The errors `Parse` returns. -/
inductive ParseError where
  /-- The error "failed to parse path pattern: %w". -/
  | parse (e : SyntaxError)
  /-- The error "failed to compile pattern for %q: %w". -/
  | compile (name : Str)
  deriving DecidableEq, Repr

/-- The `for` loop of `Parse` over the parsed expressions; `compile` is
`regexp.Compile` (`none` when it returns an error). -/
def compileExprs (compile : Str → Option Regexp) :
    List Expression → List consumer → Except ParseError (List consumer)
  | [], consumers => .ok consumers
  | expr :: exprs, consumers =>
    match expr with
    | .Literal lit =>
      compileExprs compile exprs (consumers ++ [consumer.literalConsumer lit])
    | .LiteralPattern name =>
      compileExprs compile exprs (consumers ++ [consumer.segmentConsumer name])
    | .RegexpPattern name pattern =>
      match compile pattern with
      | none => .error (ParseError.compile name)
      | some pat =>
        compileExprs compile exprs (consumers ++ [consumer.regexpConsumer name pat])

/-- The function `Parse`, with `regexp.Compile` as a parameter. The outer
`none` is a reached loop bound in the tokenizer. -/
def Parse (compile : Str → Option Regexp) (s : Str) :
    Option (Except ParseError Matcher) :=
  match parse s with
  | none => none
  | some (.error err) => some (.error (ParseError.parse err))
  | some (.ok exprs) =>
    match compileExprs compile exprs [] with
    | .error e => some (.error e)
    | .ok consumers => some (.ok { consumers := consumers })

/-! ## `mux.go` -/

/-- The type `path` of `mux.go`: one registered route. The handler is a value
of any type `H` (an `http.Handler` in the source). -/
structure path (H : Type) where
  method : Str
  matcher : Matcher
  handler : H

/-- The type `Router` (without the mutex). -/
structure Router (H : Type) where
  paths : List (path H)

/-- The fields of `*http.Request` that the router reads: `Method` and
`URL.Path`. -/
structure Request where
  Method : Str
  Path : Str
  deriving DecidableEq, Repr

/-- What `ServeHTTP` does with a request: it calls `ServeHTTP` of the handler
`h` with the capture set `mv` stored in the request context, or it writes the
status `http.StatusNotFound`. -/
inductive Response (H : Type) where
  | handled (h : H) (mv : Values)
  | notFound
  deriving DecidableEq, Repr

/-- The method `Router.Handler`, with `regexp.Compile` as a parameter: the
new route is appended to `paths`. -/
def Router.Handler {H : Type} (compile : Str → Option Regexp) (r : Router H)
    (method pattern : Str) (hh : H) : Option (Except ParseError (Router H)) :=
  match Parse compile pattern with
  | none => none
  | some (.error err) => some (.error err)
  | some (.ok m) =>
    some (.ok { paths := r.paths ++ [{ method := method, matcher := m, handler := hh }] })

/-- The `for` loop of `Router.ServeHTTP` over the registered routes. -/
def serveLoop {H : Type} : List (path H) → Request → Option (Response H)
  | [], _ => some Response.notFound
  | p :: rest, req =>
    if p.method ≠ [] ∧ req.Method ≠ p.method then serveLoop rest req
    else
      match p.matcher.Match req.Path with
      | none => none
      | some (.error _) => serveLoop rest req
      | some (.ok mv) => some (Response.handled p.handler mv)

/-- The method `Router.ServeHTTP`; `none` is a panic of a `Match` call. -/
def Router.ServeHTTP {H : Type} (r : Router H) (req : Request) : Option (Response H) :=
  serveLoop r.paths req

/-! ## Definitions used to state the properties -/

/-- The consumers the loop of `Matcher.Match` runs, in order, each with the
cursor and the capture map it is called with: a consumer is followed by the
next one only when it returned without panic and without error and left a
non-empty cursor. -/
def matchTrace : List consumer → Str → Values → List (consumer × Str × Values)
  | [], _, _ => []
  | c :: cs, s, mv =>
    (c, s, mv) ::
      match c.Consume s mv with
      | none => []
      | some r =>
        match r.err with
        | some _ => []
        | none => if r.rest = [] then [] else matchTrace cs r.rest r.mv

/-- The consumer chain of the pattern `/{n1}/{n2}/.../{nk}`, for a list of
(name, value) pairs whose names are `n1 .. nk`. -/
def slashSegmentChain : List (Str × Str) → List consumer
  | [] => []
  | (n, _) :: ps =>
    consumer.literalConsumer ['/'] :: consumer.segmentConsumer n :: slashSegmentChain ps

/-- The path `/v1/v2/.../vk` obtained from `/{n1}/{n2}/.../{nk}` by putting
the value `vi` in place of `{ni}`. -/
def slashSegmentPath : List (Str × Str) → Str
  | [] => []
  | (_, v) :: ps => '/' :: (v ++ slashSegmentPath ps)

/-- The compiled form of the regular expression `^[0-9]+` in Go's `regexp`
package: the leftmost match is the longest run of ASCII digits at offset 0,
and there is no match when the text does not begin with a digit. -/
def reLeadingDigits : Regexp where
  FindStringIndex s :=
    let k := (s.takeWhile Char.isDigit).length
    if k = 0 then none else some (0, k)

/-- The compiled form of the regular expression `.*$` in Go's `regexp`
package (no flags: `.` does not match a newline, `$` matches only at the end
of the text): the leftmost match starts right after the last newline of the
text (at offset 0 when there is none) and ends at the end of the text. -/
def reToEnd : Regexp where
  FindStringIndex s :=
    some (s.length - (s.reverse.takeWhile (fun c => c != '\n')).length, s.length)

/-- A route does not take the request: its method is set and differs from
the request method, or its Matcher returns an error on the request path. -/
def path.rejects {H : Type} (p : path H) (req : Request) : Prop :=
  (p.method ≠ [] ∧ req.Method ≠ p.method) ∨
    ∃ e, p.matcher.Match req.Path = some (.error e)

/-- The regular-expression library keeps its contract on match offsets:
whenever `FindStringIndex s` finds a match `[b e]`, `b ≤ e ≤ len(s)`
(`0 ≤ b` holds by the type). -/
def Regexp.offsetsInRange (p : Regexp) : Prop :=
  ∀ s b e, p.FindStringIndex s = some (b, e) → b ≤ e ∧ e ≤ s.length

/-- Every regexp consumer of the chain has offsets in range. -/
def chainOffsetsInRange : List consumer → Prop
  | [] => True
  | consumer.regexpConsumer _ p :: cs => p.offsetsInRange ∧ chainOffsetsInRange cs
  | _ :: cs => chainOffsetsInRange cs

/-- The capture a consumer step records: for a segment or regexp consumer
that returned without error, its name and the value it stored under that
name; nothing for a literal consumer or a failed call. -/
def recordedBy (e : consumer × Str × Values) : Option (Str × Str) :=
  match e.1 with
  | .literalConsumer _ => none
  | .segmentConsumer n | .regexpConsumer n _ =>
    match e.1.Consume e.2.1 e.2.2 with
    | none => none
    | some r =>
      match r.err with
      | some _ => none
      | none => (r.mv.find n).map (fun v => (n, v))

/-- The text a consumer step stands for: the literal text of a literal
consumer, the recorded value of a segment or regexp consumer. -/
def consumedBy (e : consumer × Str × Values) : Str :=
  match e.1 with
  | .literalConsumer t => t
  | _ =>
    match recordedBy e with
    | some nv => nv.2
    | none => []

/-- The capture a consumer step makes, read off its cursor and not off the
capture map: for a segment or regexp consumer that returned without error,
its name and the value it cut from the front of its cursor, that is the
cursor `cur` without the returned rest, `cur[:len(cur)-len(rest)]`; nothing
for a literal consumer or a failed call. -/
def capturedBy (e : consumer × Str × Values) : Option (Str × Str) :=
  match e.1 with
  | .literalConsumer _ => none
  | .segmentConsumer n | .regexpConsumer n _ =>
    match e.1.Consume e.2.1 e.2.2 with
    | none => none
    | some r =>
      match r.err with
      | some _ => none
      | none => some (n, e.2.1.take (e.2.1.length - r.rest.length))

/-- The runes the tokenizer has still to deliver: the buffered rune, if
there is one, followed by the unread part of the reader. -/
def tokenizer.pending (t : tokenizer) : List Char :=
  if t.eof then [] else if t.buf = RuneError then t.src else t.buf :: t.src

/-- The tokenizer states that occur on an input without U+FFFD: `line` and
`lineHead` are 0, no U+FFFD is left to read, and once the end of the input
was seen the reader and the buffer are empty. -/
def tokenizer.Canon (t : tokenizer) : Prop :=
  t.lineHead = 0 ∧ t.line = 0 ∧ RuneError ∉ t.src ∧
    (t.eof = true → t.src = [] ∧ t.buf = RuneError)

/-- The tokenizer right after `next`: empty buffer, `p` still in the reader. -/
def tokenizer.fresh (p : List Char) (er : Bool) (off : Int) : tokenizer :=
  ⟨p, er, false, off, 0, 0, RuneError⟩

/-- The tokenizer right after `peek` when `p` is still to be delivered: the
first rune of `p` is in the buffer, or the end of the input has been seen. -/
def tokenizer.peeked (p : List Char) (er : Bool) (off : Int) : tokenizer :=
  match p with
  | [] => ⟨[], er, true, off, 0, 0, RuneError⟩
  | x :: xs => ⟨xs, er, false, off, 0, 0, x⟩

/-- The tokenizer after `n` calls of `Token`. -/
def tokenizer.steps : Nat → tokenizer → Option tokenizer
  | 0, t => some t
  | n + 1, t =>
    match t.Token with
    | none => none
    | some (_, t1) => tokenizer.steps n t1

/-- The runes that do not end a literal run: in regex-body mode all but `}`,
otherwise all but `:`, `{` and `}`. -/
def inLiteral (er : Bool) (c : Char) : Bool :=
  if er then c != '}' else (c != ':' && c != '{' && c != '}')

/-- What `Token` returns, and the tokenizer it leaves, described on the
list `p` of runes still to be delivered (free of U+FFFD), the regex-body flag
`er` and the offset `off`: white space is dropped, then the next rune decides
the token. -/
def tokenAt (p : List Char) (er : Bool) (off : Int) : TokReturn × tokenizer :=
  let q := p.dropWhile IsSpace
  let off1 := off + (p.takeWhile IsSpace).length
  let pos : position := ⟨1, off1 + 1⟩
  match q with
  | [] => (⟨.tEOF, none, pos, some .EOF⟩, tokenizer.peeked [] er off1)
  | x :: xs =>
    if x = '{' then (⟨.tOpenBrace, some ['{'], pos, none⟩, tokenizer.fresh xs er (off1 + 1))
    else if x = '}' then
      (⟨.tCloseBrace, some ['}'], pos, none⟩, tokenizer.fresh xs er (off1 + 1))
    else if x = ':' then
      (⟨.tColon, some [':'], pos, none⟩, tokenizer.fresh xs true (off1 + 1))
    else
      (⟨.tLiteral, some (q.takeWhile (inLiteral er)), pos, none⟩,
        tokenizer.peeked (q.dropWhile (inLiteral er)) false
          (off1 + (q.takeWhile (inLiteral er)).length))

/-! ## Auxiliary facts about the library operations -/

theorem TrimPrefix_append (pre t : Str) : TrimPrefix (pre ++ t) pre = t := by
  simp [TrimPrefix, List.isPrefixOf_iff_prefix]

theorem TrimPrefix_of_not_prefix (s pre : Str) (h : ¬ pre <+: s) :
    TrimPrefix s pre = s := by
  simp [TrimPrefix, List.isPrefixOf_iff_prefix, h]

theorem ne_append_of_ne_nil (pre t : Str) (h : pre ≠ []) : t ≠ pre ++ t := by
  intro e
  have hl := congrArg List.length e
  simp at hl
  exact h hl

theorem IndexByte_eq_none {s : Str} {c : Char} (h : c ∉ s) : IndexByte s c = none := by
  induction s with
  | nil => rfl
  | cons x xs ih =>
    have hx : x ≠ c := fun e => h (by simp [e])
    have hxs : c ∉ xs := fun e => h (by simp [e])
    simp [IndexByte, hx, ih hxs]

theorem IndexByte_append_cons {v : Str} {c : Char} (r : Str) (h : c ∉ v) :
    IndexByte (v ++ c :: r) c = some v.length := by
  induction v with
  | nil => simp [IndexByte]
  | cons x xs ih =>
    have hx : x ≠ c := fun e => h (by simp [e])
    have hxs : c ∉ xs := fun e => h (by simp [e])
    simp [IndexByte, hx, ih hxs]

theorem getElem?_append_cons (v : Str) (c : Char) (r : Str) :
    (v ++ c :: r)[v.length]? = some c := by
  induction v with
  | nil => simp
  | cons x xs ih => simpa using ih

theorem exists_first_occurrence {s : Str} {c : Char} (h : c ∈ s) :
    ∃ v r, s = v ++ c :: r ∧ c ∉ v := by
  induction s with
  | nil => simp at h
  | cons x xs ih =>
    by_cases hx : x = c
    · exact ⟨[], xs, by simp [hx], by simp⟩
    · have hxs : c ∈ xs := by
        rcases List.mem_cons.mp h with e | e
        · exact absurd e.symm hx
        · exact e
      obtain ⟨v, r, hs, hv⟩ := ih hxs
      refine ⟨x :: v, r, by simp [hs], ?_⟩
      intro hm
      rcases List.mem_cons.mp hm with e | e
      · exact hx e.symm
      · exact hv e

/-! ## The capture map -/

theorem Values.find_set_self (v : Values) (k x : Str) : (v.set k x).find k = some x := by
  simp [Values.set, Values.find]

theorem Values.find_filter_ne (v : Values) (k k2 : Str) (h : k2 ≠ k) :
    Values.find (v.filter (fun e => decide (e.1 ≠ k))) k2 = Values.find v k2 := by
  induction v with
  | nil => rfl
  | cons e rest ih =>
    obtain ⟨k1, x⟩ := e
    by_cases h1 : k1 = k
    · have h12 : ¬ k = k2 := fun e => h e.symm
      simp_all [List.filter, Values.find]
    · simp_all [List.filter, Values.find]

theorem Values.find_set_ne (v : Values) (k x k2 : Str) (h : k2 ≠ k) :
    (v.set k x).find k2 = v.find k2 := by
  have hk : k ≠ k2 := fun e => h e.symm
  have hf := Values.find_filter_ne v k k2 h
  simp only [Values.set, Values.find, hk, if_false]
  exact hf

theorem Values.find_eq_none (v : Values) (k : Str) (h : ∀ x, (k, x) ∉ v) :
    v.find k = none := by
  induction v with
  | nil => rfl
  | cons e rest ih =>
    obtain ⟨k1, x⟩ := e
    have h1 : k1 ≠ k := fun e => h x (by simp [e])
    have h2 : ∀ y, (k, y) ∉ rest := fun y hy => h y (List.mem_cons_of_mem _ hy)
    simp [Values.find, h1, ih h2]

theorem Values.find_of_mem (v : Values) (hv : (v.map Prod.fst).Nodup) (k x : Str)
    (h : (k, x) ∈ v) : v.find k = some x := by
  induction v with
  | nil => simp at h
  | cons e rest ih =>
    obtain ⟨k1, x1⟩ := e
    rw [List.map_cons, List.nodup_cons] at hv
    rcases List.mem_cons.mp h with e | e
    · cases e
      simp [Values.find]
    · have h1 : k1 ≠ k := by
        intro e1
        apply hv.1
        rw [e1]
        exact List.mem_map.mpr ⟨(k, x), e, rfl⟩
      simp [Values.find, h1, ih hv.2 e]

theorem Values.set_nodup (v : Values) (hv : (v.map Prod.fst).Nodup) (k x : Str) :
    ((v.set k x).map Prod.fst).Nodup := by
  simp only [Values.set, List.map_cons, List.nodup_cons]
  constructor
  · intro hm
    obtain ⟨e, he, hk⟩ := List.mem_map.mp hm
    have := (List.mem_filter.mp he).2
    simp at this
    exact this hk
  · exact (List.filter_sublist v).map Prod.fst |>.nodup hv

/-! ## One step of each consumer -/

theorem literalConsumer_Consume_append (pre t : Str) (mv : Values) (h : pre ≠ []) :
    literalConsumer.Consume pre (pre ++ t) mv = some ⟨t, none, mv⟩ := by
  simp [literalConsumer.Consume, TrimPrefix_append, ne_append_of_ne_nil pre t h]

theorem literalConsumer_Consume_of_not_prefix (c s : Str) (mv : Values) (h : ¬ c <+: s) :
    literalConsumer.Consume c s mv = some ⟨s, some (MatchError.literal c), mv⟩ := by
  simp [literalConsumer.Consume, TrimPrefix_of_not_prefix s c h]

theorem literalConsumer_Consume_nil (s : Str) (mv : Values) :
    literalConsumer.Consume [] s mv = some ⟨s, some (MatchError.literal []), mv⟩ := by
  simp [literalConsumer.Consume, TrimPrefix]

theorem segmentConsumer_Consume_nil (name : Str) (mv : Values) :
    segmentConsumer.Consume name [] mv = some ⟨[], some (MatchError.segment name), mv⟩ := by
  simp [segmentConsumer.Consume, IndexByte]

theorem segmentConsumer_Consume_of_not_mem (name s : Str) (mv : Values) (hs : s ≠ [])
    (h : '/' ∉ s) : segmentConsumer.Consume name s mv = some ⟨[], none, mv.set name s⟩ := by
  have hl : 0 < s.length := List.length_pos.mpr hs
  simp [segmentConsumer.Consume, IndexByte_eq_none h, hl]

theorem segmentConsumer_Consume_append_slash (name v r : Str) (mv : Values) (h : '/' ∉ v) :
    segmentConsumer.Consume name (v ++ '/' :: r) mv = some ⟨'/' :: r, none, mv.set name v⟩ := by
  simp [segmentConsumer.Consume, IndexByte_append_cons r h, sliceTo, sliceFrom]

/-! ## Patterns made of literal text only -/

/-- The loop of `literal`, outside regex-body mode and with an empty
lookahead buffer, reads a run of runes none of which is `:`, `{`, `}` or
U+FFFD up to the end of the input. -/
theorem literalLoop_plain (xs : List Char) :
    ∀ (fuel : Nat) (off lh ln : Int) (b : Str),
      (∀ c ∈ xs, c ≠ ':' ∧ c ≠ '{' ∧ c ≠ '}' ∧ c ≠ RuneError) → xs.length + 1 ≤ fuel →
      tokenizer.literalLoop fuel ⟨xs, false, false, off, lh, ln, RuneError⟩ b =
        some (b ++ xs, ⟨[], false, true, off + xs.length, lh, ln, RuneError⟩) := by
  induction xs with
  | nil =>
    intro fuel off lh ln b _ hf
    obtain ⟨f, rfl⟩ : ∃ f, fuel = f + 1 := ⟨fuel - 1, by omega⟩
    simp [tokenizer.literalLoop, tokenizer.peek]
  | cons x xs ih =>
    intro fuel off lh ln b hp hf
    obtain ⟨f, rfl⟩ : ∃ f, fuel = f + 1 := ⟨fuel - 1, by omega⟩
    have hx := hp x (by simp)
    have hxs : ∀ c ∈ xs, c ≠ ':' ∧ c ≠ '{' ∧ c ≠ '}' ∧ c ≠ RuneError :=
      fun c hc => hp c (List.mem_cons_of_mem _ hc)
    have hlen : xs.length + 1 ≤ f := by simp at hf; omega
    have h := ih f (off + 1) lh ln (b ++ [x]) hxs hlen
    simp only [tokenizer.literalLoop, tokenizer.peek, tokenizer.next]
    simp only [hx.1, hx.2.1, hx.2.2.1, hx.2.2.2, if_true, if_false, or_self,
      Bool.false_eq_true]
    rw [h]
    simp
    omega

/-- One iteration of the loop of `literal`, outside regex-body mode, when the
lookahead buffer holds a rune that is none of `:`, `{`, `}`, U+FFFD. -/
theorem literalLoop_buffered (c : Char) (cs : List Char) (f : Nat) (off lh ln : Int)
    (b : Str) (hc : c ≠ ':' ∧ c ≠ '{' ∧ c ≠ '}' ∧ c ≠ RuneError) :
    tokenizer.literalLoop (f + 1) ⟨cs, false, false, off, lh, ln, c⟩ b =
      tokenizer.literalLoop f ⟨cs, false, false, off + 1, lh, ln, RuneError⟩ (b ++ [c]) := by
  simp [tokenizer.literalLoop, tokenizer.peek, tokenizer.next, hc.1, hc.2.1, hc.2.2.1,
    hc.2.2.2]

/-- The first `Token` call on a pattern of literal text that does not begin
with white space returns the whole pattern as one literal token. -/
theorem Token_plain (c : Char) (cs : List Char)
    (hp : ∀ x ∈ c :: cs, x ≠ ':' ∧ x ≠ '{' ∧ x ≠ '}' ∧ x ≠ RuneError)
    (hw : IsSpace c = false) :
    (newTokenizer (c :: cs)).Token =
      some (⟨.tLiteral, some (c :: cs), ⟨1, 1⟩, none⟩,
        ⟨[], false, true, 1 + cs.length, 0, 0, RuneError⟩) := by
  have hc := hp c (by simp)
  have hcs : ∀ x ∈ cs, x ≠ ':' ∧ x ≠ '{' ∧ x ≠ '}' ∧ x ≠ RuneError :=
    fun x hx => hp x (List.mem_cons_of_mem _ hx)
  have hl := literalLoop_plain cs (cs.length + 1) 1 0 0 [c] hcs (le_refl _)
  have hs : (newTokenizer (c :: cs)).skipWhitespace =
      some ⟨cs, false, false, 0, 0, 0, c⟩ := by
    simp [tokenizer.skipWhitespace, tokenizer.skipWhitespaceLoop, newTokenizer,
      tokenizer.peek, hw]
  have hlit : tokenizer.literal ⟨cs, false, false, 0, 0, 0, c⟩ =
      some (c :: cs, ⟨[], false, true, 1 + cs.length, 0, 0, RuneError⟩) := by
    have hb := literalLoop_buffered c cs (cs.length + 1) 0 0 0 [] hc
    simp only [List.nil_append, Int.zero_add] at hb
    simp only [tokenizer.literal]
    rw [hb, hl]
    simp
  simp only [tokenizer.Token, hs, tokenizer.peek, tokenizer.position]
  simp only [hc.1, hc.2.1, hc.2.2.1, hc.2.2.2, if_false, Bool.false_eq_true, hlit]
  simp

/-- Once the tokenizer has seen the end of the input, `Token` returns the
end-of-input token with `io.EOF` and leaves the tokenizer as it is. -/
theorem Token_at_eof (t : tokenizer) (h : t.eof = true) :
    t.Token = some (⟨.tEOF, none, t.position, some .EOF⟩, t) := by
  simp [tokenizer.Token, tokenizer.skipWhitespace, tokenizer.skipWhitespaceLoop,
    tokenizer.peek, h]

/-- The first `Token` call on the empty pattern returns the end-of-input
token. -/
theorem Token_empty :
    (newTokenizer []).Token =
      some (⟨.tEOF, none, ⟨1, 1⟩, some .EOF⟩, ⟨[], false, true, 0, 0, 0, RuneError⟩) := by
  decide

/-- The descriptor sequence of a pattern of literal text that does not begin
with white space: the pattern itself as one `Literal`, or nothing when the
pattern is empty. -/
theorem parse_plain (p : Str)
    (hp : ∀ x ∈ p, x ≠ ':' ∧ x ≠ '{' ∧ x ≠ '}' ∧ x ≠ RuneError)
    (hw : ∀ c, p.head? = some c → IsSpace c = false) :
    parse p = some (.ok (if p = [] then [] else [Expression.Literal p])) := by
  cases p with
  | nil =>
    simp [parse, lexer.tokens, lexer.Lex, newLexer, Token_empty, parseSegments]
  | cons c cs =>
    have h1 := Token_plain c cs hp (hw c rfl)
    have h2 := Token_at_eof ⟨[], false, true, 1 + cs.length, 0, 0, RuneError⟩ rfl
    simp [parse, lexer.tokens, lexer.Lex, newLexer, h1, h2, parseSegments, Except.map]

/-- The chain of one non-empty literal accepts exactly that literal, with no
capture. -/
theorem Match_single_literal (p s : Str) (hp : p ≠ []) :
    (Matcher.mk [.literalConsumer p]).Match s =
      if s = p then some (.ok [])
      else if p <+: s then some (.error MatchError.trailing)
      else some (.error (MatchError.input (MatchError.literal p))) := by
  by_cases hpre : p <+: s
  · obtain ⟨t, rfl⟩ := hpre
    have h1 := literalConsumer_Consume_append p t [] hp
    by_cases ht : t = []
    · subst ht
      rw [List.append_nil] at h1
      simp [Matcher.Match, matchLoop, consumer.Consume, h1]
    · have hne : ¬ p ++ t = p := by
        intro e
        apply ht
        have := congrArg List.length e
        simp at this
        exact this
      simp [Matcher.Match, matchLoop, consumer.Consume, h1, ht, hne]
  · have h1 := literalConsumer_Consume_of_not_prefix p s [] hpre
    have hne : ¬ s = p := fun e => hpre (by rw [e])
    simp [Matcher.Match, matchLoop, consumer.Consume, h1, hne, hpre]

/-- C1 (amended): for every pattern `p` of literal text (no `{`, `}`, `:`) that
contains no U+FFFD rune and does not begin with white space, `Parse p`
yields a Matcher such that, for every input `s`, `Match s` succeeds exactly
when `s = p`, and on success the capture set is empty. -/
theorem Parse_literal_Match (compile : Str → Option Regexp) (p : Str)
    (hp : ∀ x ∈ p, x ≠ ':' ∧ x ≠ '{' ∧ x ≠ '}' ∧ x ≠ RuneError)
    (hw : ∀ c, p.head? = some c → IsSpace c = false) :
    ∃ m, Parse compile p = some (.ok m) ∧
      ∀ s, ((∃ mv, m.Match s = some (.ok mv)) ↔ s = p) ∧
        (∀ mv, m.Match s = some (.ok mv) → mv = []) := by
  have hparse := parse_plain p hp hw
  by_cases hnil : p = []
  · subst hnil
    refine ⟨⟨[]⟩, by simp [Parse, hparse, compileExprs], ?_⟩
    intro s
    by_cases hs : s = []
    · simp [Matcher.Match, matchLoop, hs]
    · simp [Matcher.Match, matchLoop, hs]
  · refine ⟨⟨[.literalConsumer p]⟩, by simp [Parse, hparse, hnil, compileExprs], ?_⟩
    intro s
    rw [Match_single_literal p s hnil]
    by_cases hs : s = p
    · simp [hs]
    · by_cases hpre : p <+: s
      · simp [hs, hpre]
      · simp [hs, hpre]

/-- The pattern `/foo/bar`: its Matcher accepts `/foo/bar` and only that. -/
theorem Parse_literal_Match_witness :
    ∃ m, Parse (fun _ => none) "/foo/bar".toList = some (.ok m) ∧
      ∀ s, ((∃ mv, m.Match s = some (.ok mv)) ↔ s = "/foo/bar".toList) ∧
        (∀ mv, m.Match s = some (.ok mv) → mv = []) :=
  Parse_literal_Match (fun _ => none) "/foo/bar".toList (by decide) (by decide)

/-- C1 as stated fails: the pattern ` a` (a space, then `a`) contains only
literal text, yet its Matcher rejects the input ` a` and accepts `a`,
because the tokenizer skips the white space before a token. -/
theorem Parse_literal_leading_space :
    (∀ x ∈ " a".toList, x ≠ '{' ∧ x ≠ '}' ∧ x ≠ ':') ∧
    ∃ m, Parse (fun _ => none) " a".toList = some (.ok m) ∧
      m.Match " a".toList = some (.error (MatchError.input (MatchError.literal "a".toList))) ∧
      m.Match "a".toList = some (.ok []) :=
  ⟨by decide, ⟨[.literalConsumer "a".toList]⟩, by rfl, by decide, by decide⟩

/-! ## Literal prefix followed by a `{name}` placeholder -/

/-- C2: for a non-empty literal `L`, the chain `[Literal L, Segment n]` run on
the input `L` itself does not reject it: the literal consumer empties the
cursor, the loop is left before the segment consumer runs, and `Match`
returns an empty capture set without error. -/
theorem Match_literal_segment_on_literal (L n : Str) (hL : L ≠ []) :
    (Matcher.mk [.literalConsumer L, .segmentConsumer n]).Match L = some (.ok []) := by
  have h := literalConsumer_Consume_append L [] [] hL
  rw [List.append_nil] at h
  simp [Matcher.Match, matchLoop, consumer.Consume, h]

/-- Pattern `/a/{id}` accepts the input `/a/` with no capture. -/
theorem Match_literal_segment_on_literal_witness :
    "/a/".toList ≠ [] ∧
      (Matcher.mk [.literalConsumer "/a/".toList, .segmentConsumer "id".toList]).Match
        "/a/".toList = some (.ok []) :=
  ⟨by decide, Match_literal_segment_on_literal "/a/".toList "id".toList (by decide)⟩

/-- C3: for a non-empty literal `L`, the chain
`[Literal L, Segment n, Literal ("/" ++ R)]` accepts the input
`L ++ "/" ++ R`, in which the placeholder stands for an empty path segment,
and records the empty string under `n`. -/
theorem Match_empty_middle_segment (L n R : Str) (hL : L ≠ []) :
    (Matcher.mk [.literalConsumer L, .segmentConsumer n,
        .literalConsumer ('/' :: R)]).Match (L ++ '/' :: R) = some (.ok [(n, [])]) := by
  have h1 := literalConsumer_Consume_append L ('/' :: R) [] hL
  have h2 := segmentConsumer_Consume_append_slash n [] R [] (by simp)
  have h3 := literalConsumer_Consume_append ('/' :: R) [] (Values.set [] n []) (by simp)
  simp only [List.nil_append, List.append_nil, Values.set, List.filter_nil] at h2 h3
  simp [Matcher.Match, matchLoop, consumer.Consume, h1, h2, h3]

/-- Pattern `/foo/bar/{id}/view` accepts `/foo/bar//view` with `id` empty. -/
theorem Match_empty_middle_segment_witness :
    "/foo/bar/".toList ≠ [] ∧
      (Matcher.mk [.literalConsumer "/foo/bar/".toList, .segmentConsumer "id".toList,
        .literalConsumer "/view".toList]).Match "/foo/bar//view".toList
        = some (.ok [("id".toList, [])]) :=
  ⟨by decide,
    Match_empty_middle_segment "/foo/bar/".toList "id".toList "view".toList (by decide)⟩

/-- The chain `[Literal L, Segment n]` on `L ++ t`, `L` and `t` non-empty:
accepted with capture `n = t` when `t` has no slash, rejected with the
trailing-input error when it has one. -/
theorem Match_literal_segment_eq (L n t : Str) (hL : L ≠ []) (ht : t ≠ []) :
    (Matcher.mk [.literalConsumer L, .segmentConsumer n]).Match (L ++ t) =
      if '/' ∈ t then some (.error MatchError.trailing) else some (.ok [(n, t)]) := by
  have h1 := literalConsumer_Consume_append L t [] hL
  by_cases hs : '/' ∈ t
  · obtain ⟨v, r, rfl, hv⟩ := exists_first_occurrence hs
    have h2 := segmentConsumer_Consume_append_slash n v r [] hv
    simp [Matcher.Match, matchLoop, consumer.Consume, h1, h2]
  · have h2 := segmentConsumer_Consume_of_not_mem n t [] ht hs
    simp [Matcher.Match, matchLoop, consumer.Consume, h1, h2, ht, hs, Values.set]

/-- C5: for a non-empty literal `L`, a name `n` and a non-empty `t`, the chain
`[Literal L, Segment n]` accepts `L ++ t` exactly when `t` contains no `/`,
and whenever it accepts the capture set is exactly `{n -> t}`. -/
theorem Match_literal_segment_iff (L n t : Str) (hL : L ≠ []) (ht : t ≠ []) :
    ((∃ mv, (Matcher.mk [.literalConsumer L, .segmentConsumer n]).Match (L ++ t)
        = some (.ok mv)) ↔ '/' ∉ t) ∧
      ∀ mv, (Matcher.mk [.literalConsumer L, .segmentConsumer n]).Match (L ++ t)
        = some (.ok mv) → mv = [(n, t)] := by
  rw [Match_literal_segment_eq L n t hL ht]
  by_cases hs : '/' ∈ t
  · simp [hs]
  · simp [hs]

/-- Pattern `/foo/bar/{id}` accepts `/foo/bar/123` with `id = 123`, and the
equivalence at `t = 123/` shows that `/foo/bar/123/` is not accepted. -/
theorem Match_literal_segment_iff_witness :
    (((∃ mv, (Matcher.mk [.literalConsumer "/foo/bar/".toList,
          .segmentConsumer "id".toList]).Match ("/foo/bar/".toList ++ "123".toList)
        = some (.ok mv)) ↔ '/' ∉ "123".toList) ∧
      ∀ mv, (Matcher.mk [.literalConsumer "/foo/bar/".toList,
          .segmentConsumer "id".toList]).Match ("/foo/bar/".toList ++ "123".toList)
        = some (.ok mv) → mv = [("id".toList, "123".toList)]) ∧
    (Matcher.mk [.literalConsumer "/foo/bar/".toList,
          .segmentConsumer "id".toList]).Match "/foo/bar/123".toList
        = some (.ok [("id".toList, "123".toList)]) ∧
    (Matcher.mk [.literalConsumer "/foo/bar/".toList,
          .segmentConsumer "id".toList]).Match "/foo/bar/123/".toList
        = some (.error MatchError.trailing) :=
  ⟨Match_literal_segment_iff "/foo/bar/".toList "id".toList "123".toList
      (by decide) (by decide), by decide, by decide⟩

/-- C6: for every chain `[Literal L, Segment n, Literal R]` with `L`
non-empty and `R` beginning with `/`, and every non-empty slash-free `v`,
`Match (L ++ v ++ R)` succeeds and the capture set is exactly `{n -> v}`. -/
theorem Match_literal_segment_literal (L n v R : Str) (hL : L ≠ [])
    (hR : R.head? = some '/') (_hv : v ≠ []) (hs : '/' ∉ v) :
    (Matcher.mk [.literalConsumer L, .segmentConsumer n, .literalConsumer R]).Match
      (L ++ v ++ R) = some (.ok [(n, v)]) := by
  obtain ⟨R1, rfl⟩ : ∃ R1, R = '/' :: R1 := by
    cases R with
    | nil => simp at hR
    | cons x xs => simp at hR; exact ⟨xs, by rw [hR]⟩
  have h1 := literalConsumer_Consume_append L (v ++ '/' :: R1) [] hL
  have h2 := segmentConsumer_Consume_append_slash n v R1 [] hs
  have h3 := literalConsumer_Consume_append ('/' :: R1) [] (Values.set [] n v) (by simp)
  simp only [List.append_nil, Values.set, List.filter_nil] at h2 h3
  simp [Matcher.Match, matchLoop, consumer.Consume, h1, h2, h3]

/-- Pattern `/foo/bar/baz/{id}/view` on `/foo/bar/baz/abc123/view` gives
`id = abc123`. -/
theorem Match_literal_segment_literal_witness :
    (Matcher.mk [.literalConsumer "/foo/bar/baz/".toList, .segmentConsumer "id".toList,
        .literalConsumer "/view".toList]).Match "/foo/bar/baz/abc123/view".toList
      = some (.ok [("id".toList, "abc123".toList)]) :=
  Match_literal_segment_literal "/foo/bar/baz/".toList "id".toList "abc123".toList
    "/view".toList (by decide) (by decide) (by decide) (by decide)

/-! ## Round trip through `/{n1}/{n2}/.../{nk}` -/

/-- The loop of `Match` on the chain of `/{n1}/.../{nk}` and the path
`/v1/.../vk`, started with any capture map `mv0`: it ends with an empty
cursor; names outside the pattern keep their entry; every name of the
pattern holds its value, except that a last value which is empty is not
recorded (the loop is left before the last segment consumer runs). -/
theorem matchLoop_slashSegment (ps : List (Str × Str)) :
    ∀ mv0 : Values, (ps.map Prod.fst).Nodup → (∀ q ∈ ps, '/' ∉ q.2) →
      ∃ mv, matchLoop (slashSegmentChain ps) (slashSegmentPath ps) mv0 = some (.ok ([], mv)) ∧
        (∀ k, k ∉ ps.map Prod.fst → mv.find k = mv0.find k) ∧
        (∀ q ∈ ps, mv.find q.1 = some q.2 ∨ (q.2 = [] ∧ mv.find q.1 = mv0.find q.1)) := by
  induction ps with
  | nil =>
    intro mv0 _ _
    exact ⟨mv0, rfl, fun _ _ => rfl, fun q hq => by simp at hq⟩
  | cons q rest ih =>
    intro mv0 hn hv
    obtain ⟨n, v⟩ := q
    rw [List.map_cons, List.nodup_cons] at hn
    have hvs : '/' ∉ v := hv (n, v) (by simp)
    have hvr : ∀ q ∈ rest, '/' ∉ q.2 := fun q hq => hv q (List.mem_cons_of_mem _ hq)
    have h1 : ∀ t : Str, literalConsumer.Consume ['/'] ('/' :: t) mv0 = some ⟨t, none, mv0⟩ :=
      fun t => literalConsumer_Consume_append ['/'] t mv0 (by simp)
    cases rest with
    | nil =>
      by_cases hve : v = []
      · subst hve
        refine ⟨mv0, ?_, fun _ _ => rfl, ?_⟩
        · simp [slashSegmentChain, slashSegmentPath, matchLoop, consumer.Consume, h1]
        · intro q hq
          simp at hq
          subst hq
          exact Or.inr ⟨rfl, rfl⟩
      · have h2 := segmentConsumer_Consume_of_not_mem n v mv0 hve hvs
        refine ⟨mv0.set n v, ?_, ?_, ?_⟩
        · simp [slashSegmentChain, slashSegmentPath, matchLoop, consumer.Consume, h1, h2, hve]
        · intro k hk
          simp at hk
          exact Values.find_set_ne mv0 n v k hk
        · intro q hq
          simp at hq
          subst hq
          exact Or.inl (Values.find_set_self mv0 n v)
    | cons q2 rest2 =>
      obtain ⟨n2, v2⟩ := q2
      have h2 := segmentConsumer_Consume_append_slash n v (v2 ++ slashSegmentPath rest2) mv0 hvs
      obtain ⟨mv, hm, ha, hb⟩ := ih (mv0.set n v) hn.2 hvr
      refine ⟨mv, ?_, ?_, ?_⟩
      · have hne : v ++ '/' :: (v2 ++ slashSegmentPath rest2) ≠ [] := by simp
        have hstep : matchLoop (slashSegmentChain ((n, v) :: (n2, v2) :: rest2))
            (slashSegmentPath ((n, v) :: (n2, v2) :: rest2)) mv0
            = matchLoop (slashSegmentChain ((n2, v2) :: rest2))
                (slashSegmentPath ((n2, v2) :: rest2)) (mv0.set n v) := by
          simp only [slashSegmentChain, slashSegmentPath]
          rw [matchLoop]
          simp only [consumer.Consume, h1, hne, if_false]
          rw [matchLoop]
          simp only [consumer.Consume, h2]
          simp
        rw [hstep]
        exact hm
      · intro k hk
        have hk1 : k ≠ n := fun e => hk (by simp [e])
        have hk2 : k ∉ List.map Prod.fst ((n2, v2) :: rest2) := fun e =>
          hk (List.mem_cons_of_mem _ e)
        rw [ha k hk2]
        exact Values.find_set_ne mv0 n v k hk1
      · intro q hq
        rcases List.mem_cons.mp hq with e | e
        · subst e
          left
          rw [ha n hn.1]
          exact Values.find_set_self mv0 n v
        · have hq1 : q.1 ≠ n := by
            intro e1
            apply hn.1
            rw [← e1]
            exact List.mem_map.mpr ⟨q, e, rfl⟩
          rcases hb q e with h | ⟨h, h3⟩
          · exact Or.inl h
          · exact Or.inr ⟨h, by rw [h3]; exact Values.find_set_ne mv0 n v q.1 hq1⟩

/-- C4: round trip. For the pattern `/{n1}/{n2}/.../{nk}` with pairwise
distinct names and slash-free strings `v1 .. vk`, matching the path
`/v1/v2/.../vk` succeeds, and in the returned capture set `Get ni = vi` for
every `i`; moreover every non-empty `vi` is stored under `ni` as a map
entry. -/
theorem Match_roundTrip (ps : List (Str × Str)) (hn : (ps.map Prod.fst).Nodup)
    (hv : ∀ q ∈ ps, '/' ∉ q.2) :
    ∃ mv, (Matcher.mk (slashSegmentChain ps)).Match (slashSegmentPath ps) = some (.ok mv) ∧
      (∀ q ∈ ps, mv.Get q.1 = q.2) ∧
      (∀ q ∈ ps, q.2 ≠ [] → mv.find q.1 = some q.2) := by
  obtain ⟨mv, hm, _, hb⟩ := matchLoop_slashSegment ps [] hn hv
  refine ⟨mv, by simp [Matcher.Match, hm], ?_, ?_⟩
  · intro q hq
    rcases hb q hq with h | ⟨h, h3⟩
    · simp [Values.Get, h]
    · simp [Values.Get, h3, Values.find, h]
  · intro q hq hne
    rcases hb q hq with h | ⟨h, _⟩
    · exact h
    · exact absurd h hne

/-- Pattern `/{a}/{b}` on the path `/x/yz`: captures `a = x`, `b = yz`. -/
theorem Match_roundTrip_witness :
    ∃ mv, (Matcher.mk (slashSegmentChain [("a".toList, "x".toList),
          ("b".toList, "yz".toList)])).Match
        (slashSegmentPath [("a".toList, "x".toList), ("b".toList, "yz".toList)])
        = some (.ok mv) ∧
      (∀ q ∈ [("a".toList, "x".toList), ("b".toList, "yz".toList)], mv.Get q.1 = q.2) ∧
      (∀ q ∈ [("a".toList, "x".toList), ("b".toList, "yz".toList)],
        q.2 ≠ [] → mv.find q.1 = some q.2) :=
  Match_roundTrip [("a".toList, "x".toList), ("b".toList, "yz".toList)]
    (by decide) (by decide)

/-! ## The `{name:regexp}` placeholder -/

/-- C7: if the leftmost match of the pattern in the cursor `s` ends at offset
`e` (within `s`), `regexpConsumer.Consume` succeeds; with `j` the index of
the first `/` at or after `e` (`j = len(s)` when there is none) it records
`s[0:j]` under its name and returns the cursor `s[j:]`. If the pattern has
no match in `s`, it fails, returns `s` and leaves the capture map as it
was. -/
theorem regexpConsumer_Consume_spec (name : Str) (p : Regexp) (s : Str) (mv : Values) :
    (∀ b e, p.FindStringIndex s = some (b, e) → e ≤ s.length →
      ∃ j, e ≤ j ∧ j ≤ s.length ∧ '/' ∉ (s.take j).drop e ∧
        (j = s.length ∨ s[j]? = some '/') ∧
        regexpConsumer.Consume name p s mv = some ⟨s.drop j, none, mv.set name (s.take j)⟩) ∧
    (p.FindStringIndex s = none →
      regexpConsumer.Consume name p s mv = some ⟨s, some (MatchError.pattern name), mv⟩) := by
  constructor
  · intro b e hf he
    by_cases hs : '/' ∈ s.drop e
    · obtain ⟨v, r, hd, hv⟩ := exists_first_occurrence hs
      have hlen : s.length = e + (v.length + (r.length + 1)) := by
        have h := congrArg List.length hd
        simp at h
        omega
      have hj : v.length + e ≤ s.length := by omega
      refine ⟨v.length + e, by omega, hj, ?_, Or.inr ?_, ?_⟩
      · rw [List.drop_take, hd]
        simpa using hv
      · have h2 : (s.drop e)[v.length]? = some '/' := by
          rw [hd]
          exact getElem?_append_cons v '/' r
        rw [List.getElem?_drop] at h2
        rw [Nat.add_comm]
        exact h2
      · simp [regexpConsumer.Consume, hf, sliceFrom, sliceTo, he, hd, IndexByte_append_cons r hv, hj]
    · refine ⟨s.length, he, le_refl _, ?_, Or.inl rfl, ?_⟩
      · simpa using hs
      · simp [regexpConsumer.Consume, hf, sliceFrom, he, IndexByte_eq_none hs]
  · intro hf
    simp [regexpConsumer.Consume, hf]

/-- The consumer of `{id:^[0-9]+}` on the cursor `0123456/view`: the match
ends at offset 7, the value `0123456` is recorded and `/view` is left. -/
theorem regexpConsumer_Consume_spec_witness :
    (∃ j, 7 ≤ j ∧ j ≤ "0123456/view".toList.length ∧
        '/' ∉ ("0123456/view".toList.take j).drop 7 ∧
        (j = "0123456/view".toList.length ∨ "0123456/view".toList[j]? = some '/') ∧
        regexpConsumer.Consume "id".toList reLeadingDigits "0123456/view".toList [] =
          some ⟨"0123456/view".toList.drop j, none,
            Values.set [] "id".toList ("0123456/view".toList.take j)⟩) ∧
    regexpConsumer.Consume "id".toList reLeadingDigits "0123456/view".toList [] =
      some ⟨"/view".toList, none, [("id".toList, "0123456".toList)]⟩ ∧
    regexpConsumer.Consume "id".toList reLeadingDigits "abc/view".toList [] =
      some ⟨"abc/view".toList, some (MatchError.pattern "id".toList), []⟩ :=
  ⟨(regexpConsumer_Consume_spec "id".toList reLeadingDigits "0123456/view".toList []).1 0 7
      (by decide) (by decide), by decide, by decide⟩

/-- A regular expression whose leftmost match ends at the end of the cursor
makes the consumer record the whole cursor and return the empty cursor. -/
theorem regexpConsumer_Consume_match_to_end (name : Str) (p : Regexp) (s : Str) (mv : Values)
    (b : Nat) (hf : p.FindStringIndex s = some (b, s.length)) :
    regexpConsumer.Consume name p s mv = some ⟨[], none, mv.set name s⟩ := by
  simp [regexpConsumer.Consume, hf, sliceFrom, IndexByte]

/-- C8: the pattern `L{n:.*$}` with a non-empty literal `L` (for instance
`/foo/bar/{rest:.*$}`) matches everything under `L`: for every string `r`,
slashes included, `Match (L ++ r)` succeeds and `Get n` on the result is
`r`. More generally a regexp consumer whose leftmost match ends at the end
of its cursor records the whole cursor and leaves it empty. -/
theorem Match_literal_regexp_to_end (L n : Str) (hL : L ≠ []) (r : Str) :
    (∃ mv, (Matcher.mk [.literalConsumer L, .regexpConsumer n reToEnd]).Match (L ++ r)
        = some (.ok mv) ∧ mv.Get n = r) ∧
    (∀ (p : Regexp) (s : Str) (mv : Values) (b : Nat),
      p.FindStringIndex s = some (b, s.length) →
        (consumer.regexpConsumer n p).Consume s mv = some ⟨[], none, mv.set n s⟩) := by
  constructor
  · have h1 := literalConsumer_Consume_append L r [] hL
    by_cases hr : r = []
    · subst hr
      rw [List.append_nil] at h1 ⊢
      exact ⟨[], by simp [Matcher.Match, matchLoop, consumer.Consume, h1], rfl⟩
    · have h2 := regexpConsumer_Consume_match_to_end n reToEnd r []
        (r.length - (r.reverse.takeWhile (fun c => c != '\n')).length) rfl
      refine ⟨Values.set [] n r, ?_, ?_⟩
      · simp [Matcher.Match, matchLoop, consumer.Consume, h1, h2, hr]
      · simp [Values.Get, Values.find_set_self]
  · intro p s mv b hf
    exact regexpConsumer_Consume_match_to_end n p s mv b hf

/-- Pattern `/foo/bar/baz/{id:.*$}` on `/foo/bar/baz/abc123/hello/world`
gives `id = abc123/hello/world`. -/
theorem Match_literal_regexp_to_end_witness :
    ((∃ mv, (Matcher.mk [.literalConsumer "/foo/bar/baz/".toList,
          .regexpConsumer "id".toList reToEnd]).Match
          ("/foo/bar/baz/".toList ++ "abc123/hello/world".toList) = some (.ok mv) ∧
        mv.Get "id".toList = "abc123/hello/world".toList) ∧
      (∀ (p : Regexp) (s : Str) (mv : Values) (b : Nat),
        p.FindStringIndex s = some (b, s.length) →
          (consumer.regexpConsumer "id".toList p).Consume s mv
            = some ⟨[], none, mv.set "id".toList s⟩)) ∧
    (Matcher.mk [.literalConsumer "/foo/bar/baz/".toList,
        .regexpConsumer "id".toList reToEnd]).Match "/foo/bar/baz/abc123/hello/world".toList
      = some (.ok [("id".toList, "abc123/hello/world".toList)]) :=
  ⟨Match_literal_regexp_to_end "/foo/bar/baz/".toList "id".toList (by decide)
      "abc123/hello/world".toList, by decide⟩

/-! ## Values recorded by `{name}` placeholders -/

theorem takeWhile_append_slash (v r : Str) (h : '/' ∉ v) :
    (v ++ '/' :: r).takeWhile (fun c => c != '/') = v := by
  induction v with
  | nil => simp
  | cons x xs ih =>
    have hx : x ≠ '/' := fun e => h (by simp [e])
    have hxs : '/' ∉ xs := fun e => h (by simp [e])
    simp [List.takeWhile_cons, hx, ih hxs]

theorem takeWhile_of_not_mem (v : Str) (h : '/' ∉ v) :
    v.takeWhile (fun c => c != '/') = v := by
  induction v with
  | nil => simp
  | cons x xs ih =>
    have hx : x ≠ '/' := fun e => h (by simp [e])
    have hxs : '/' ∉ xs := fun e => h (by simp [e])
    simp [List.takeWhile_cons, hx, ih hxs]

/-- When the loop of `Match` ends normally, every consumer it ran returned
without panic and without error. -/
theorem matchTrace_no_error (cs : List consumer) :
    ∀ (s : Str) (mv : Values) (res : Str × Values),
      matchLoop cs s mv = some (.ok res) →
      ∀ e ∈ matchTrace cs s mv, ∃ r, e.1.Consume e.2.1 e.2.2 = some r ∧ r.err = none := by
  induction cs with
  | nil =>
    intro s mv res _ e he
    simp [matchTrace] at he
  | cons c cs ih =>
    intro s mv res hm e he
    rw [matchLoop] at hm
    rw [matchTrace] at he
    cases hc : c.Consume s mv with
    | none => simp [hc] at hm
    | some r =>
      cases hr : r.err with
      | some err => simp [hc, hr] at hm
      | none =>
        rcases List.mem_cons.mp he with h | h
        · subst h
          exact ⟨r, hc, hr⟩
        · by_cases hrest : r.rest = []
          · simp [hc, hr, hrest] at h
          · simp only [hc, hr, hrest, if_false] at hm h
            exact ih r.rest r.mv res hm e h

/-- The segment consumer, when it returns without error: what it records
and what it leaves. -/
theorem segmentConsumer_Consume_ok (n cur : Str) (mv : Values) (r : Consumed)
    (hc : segmentConsumer.Consume n cur mv = some r) (hr : r.err = none) :
    ∃ val rest, r = ⟨rest, none, mv.set n val⟩ ∧ '/' ∉ val ∧ cur = val ++ rest ∧
      (rest = [] ∨ rest.head? = some '/') ∧ val = cur.takeWhile (fun c => c != '/') := by
  by_cases hs : '/' ∈ cur
  · obtain ⟨v, t, rfl, hv⟩ := exists_first_occurrence hs
    rw [segmentConsumer_Consume_append_slash n v t mv hv] at hc
    refine ⟨v, '/' :: t, ?_, hv, rfl, Or.inr rfl, (takeWhile_append_slash v t hv).symm⟩
    exact (Option.some.inj hc).symm
  · by_cases hne : cur = []
    · subst hne
      rw [segmentConsumer_Consume_nil] at hc
      have := (Option.some.inj hc)
      rw [← this] at hr
      simp at hr
    · rw [segmentConsumer_Consume_of_not_mem n cur mv hne hs] at hc
      refine ⟨cur, [], ?_, hs, by simp, Or.inl rfl, (takeWhile_of_not_mem cur hs).symm⟩
      exact (Option.some.inj hc).symm

/-- C9: in every successful `Match`, each segment consumer `{n}` that ran,
on the cursor `cur` it was called with, recorded under `n` a value with no
`/` that is the longest slash-free prefix of `cur` (the prefix up to the
first `/`, or all of `cur`), and returned the remainder of `cur`, which is
empty or begins with that `/`. -/
theorem Match_segment_value_slash_free (p : Matcher) (s : Str) (mvf : Values)
    (hm : p.Match s = some (.ok mvf)) (n cur : Str) (mv : Values)
    (hrun : (consumer.segmentConsumer n, cur, mv) ∈ matchTrace p.consumers s []) :
    ∃ val rest,
      (consumer.segmentConsumer n).Consume cur mv = some ⟨rest, none, mv.set n val⟩ ∧
      '/' ∉ val ∧ cur = val ++ rest ∧ (rest = [] ∨ rest.head? = some '/') ∧
      val = cur.takeWhile (fun c => c != '/') := by
  have hloop : ∃ res, matchLoop p.consumers s [] = some (.ok res) := by
    unfold Matcher.Match at hm
    cases h : matchLoop p.consumers s [] with
    | none => simp [h] at hm
    | some x =>
      cases x with
      | error e => simp [h] at hm
      | ok res => exact ⟨res, rfl⟩
  obtain ⟨res, hres⟩ := hloop
  obtain ⟨r, hc, hr⟩ := matchTrace_no_error p.consumers s [] res hres _ hrun
  obtain ⟨val, rest, he, h1, h2, h3, h4⟩ := segmentConsumer_Consume_ok n cur mv r hc hr
  exact ⟨val, rest, by rw [← he]; exact hc, h1, h2, h3, h4⟩

/-- Pattern `/a/{id}/view` on `/a/xyz/view`: the segment consumer runs on the
cursor `xyz/view`, records `xyz` and leaves `/view`. -/
theorem Match_segment_value_slash_free_witness :
    ∃ val rest,
      (consumer.segmentConsumer "id".toList).Consume "xyz/view".toList []
        = some ⟨rest, none, Values.set [] "id".toList val⟩ ∧
      '/' ∉ val ∧ "xyz/view".toList = val ++ rest ∧ (rest = [] ∨ rest.head? = some '/') ∧
      val = "xyz/view".toList.takeWhile (fun c => c != '/') :=
  Match_segment_value_slash_free
    (Matcher.mk [.literalConsumer "/a/".toList, .segmentConsumer "id".toList,
      .literalConsumer "/view".toList])
    "/a/xyz/view".toList [("id".toList, "xyz".toList)] (by decide)
    "id".toList "xyz/view".toList []
    (List.Mem.tail _ (List.Mem.head _))

/-! ## The capture-set accessor -/

/-- C10: for every capture set `v` (an association list with unique keys)
and every name `k`, `Get k` is the string stored under `k` when `k` is
present and the empty string when `k` is absent; `Get` is a total function,
so it never fails. -/
theorem Values_Get_spec (v : Values) (hv : (v.map Prod.fst).Nodup) (k : Str) :
    (∀ x, (k, x) ∈ v → v.Get k = x) ∧ ((∀ x, (k, x) ∉ v) → v.Get k = []) := by
  constructor
  · intro x hx
    simp [Values.Get, Values.find_of_mem v hv k x hx]
  · intro h
    simp [Values.Get, Values.find_eq_none v k h]

/-- On the capture set `{id -> 123}`: `Get id = 123` and `Get rest` is
empty. -/
theorem Values_Get_spec_witness :
    ((∀ x, ("id".toList, x) ∈ [("id".toList, "123".toList)] →
        Values.Get [("id".toList, "123".toList)] "id".toList = x) ∧
      ((∀ x, ("id".toList, x) ∉ [("id".toList, "123".toList)]) →
        Values.Get [("id".toList, "123".toList)] "id".toList = [])) ∧
    Values.Get [("id".toList, "123".toList)] "id".toList = "123".toList ∧
    Values.Get [("id".toList, "123".toList)] "rest".toList = [] :=
  ⟨Values_Get_spec [("id".toList, "123".toList)] (by decide) "id".toList,
    by decide, by decide⟩

/-! ## Single consumer steps -/

/-- C13 (amended): for every non-empty literal text `t` and cursor `s`,
`literalConsumer(t).Consume(s)` succeeds exactly when `s` starts with `t`, in
which case it returns `s` with the prefix `t` removed; otherwise it fails and
returns `s` unchanged. The capture map is never touched. -/
theorem literalConsumer_Consume_spec (t s : Str) (mv : Values) (ht : t ≠ []) :
    (t <+: s → literalConsumer.Consume t s mv = some ⟨s.drop t.length, none, mv⟩) ∧
    (¬ t <+: s → literalConsumer.Consume t s mv = some ⟨s, some (MatchError.literal t), mv⟩) ∧
    ((∃ r, literalConsumer.Consume t s mv = some r ∧ r.err = none) ↔ t <+: s) := by
  have h1 : t <+: s → literalConsumer.Consume t s mv = some ⟨s.drop t.length, none, mv⟩ := by
    rintro ⟨u, rfl⟩
    rw [literalConsumer_Consume_append t u mv ht]
    simp
  have h2 := literalConsumer_Consume_of_not_prefix t s mv
  refine ⟨h1, h2, ?_⟩
  constructor
  · rintro ⟨r, hr, he⟩
    by_contra hn
    rw [h2 hn] at hr
    rw [← Option.some.inj hr] at he
    simp at he
  · intro hp
    exact ⟨_, h1 hp, rfl⟩

/-- The literal `/foo` on the cursor `/foo/bar` leaves `/bar`; on `/bar` it
fails and returns `/bar`. -/
theorem literalConsumer_Consume_spec_witness :
    (("/foo".toList <+: "/foo/bar".toList →
        literalConsumer.Consume "/foo".toList "/foo/bar".toList [] =
          some ⟨"/foo/bar".toList.drop "/foo".toList.length, none, []⟩) ∧
      (¬ "/foo".toList <+: "/foo/bar".toList →
        literalConsumer.Consume "/foo".toList "/foo/bar".toList [] =
          some ⟨"/foo/bar".toList, some (MatchError.literal "/foo".toList), []⟩) ∧
      ((∃ r, literalConsumer.Consume "/foo".toList "/foo/bar".toList [] = some r ∧
          r.err = none) ↔ "/foo".toList <+: "/foo/bar".toList)) ∧
    literalConsumer.Consume "/foo".toList "/foo/bar".toList [] =
      some ⟨"/bar".toList, none, []⟩ ∧
    literalConsumer.Consume "/foo".toList "/bar".toList [] =
      some ⟨"/bar".toList, some (MatchError.literal "/foo".toList), []⟩ :=
  ⟨literalConsumer_Consume_spec "/foo".toList "/foo/bar".toList [] (by decide),
    by decide, by decide⟩

/-- C13 as stated fails for the empty literal: every cursor starts with the
empty text, yet `literalConsumer("").Consume("abc")` fails, because the
unchanged result of `TrimPrefix` is taken for a mismatch. -/
theorem literalConsumer_Consume_empty_fails :
    ([] : Str) <+: "abc".toList ∧
      literalConsumer.Consume [] "abc".toList [] =
        some ⟨"abc".toList, some (MatchError.literal []), []⟩ :=
  ⟨List.nil_prefix, by decide⟩

/-- No panic in one `Consume` call: a literal or segment consumer always
returns, and a regexp consumer returns when the match offsets are in range. -/
theorem Consume_returns (c : consumer) (s : Str) (mv : Values)
    (hc : chainOffsetsInRange [c]) : ∃ r, c.Consume s mv = some r := by
  cases c with
  | literalConsumer t =>
    simp only [consumer.Consume, literalConsumer.Consume]
    split <;> exact ⟨_, rfl⟩
  | segmentConsumer n =>
    by_cases hs : '/' ∈ s
    · obtain ⟨v, t, rfl, hv⟩ := exists_first_occurrence hs
      exact ⟨_, segmentConsumer_Consume_append_slash n v t mv hv⟩
    · by_cases hne : s = []
      · subst hne
        exact ⟨_, segmentConsumer_Consume_nil n mv⟩
      · exact ⟨_, segmentConsumer_Consume_of_not_mem n s mv hne hs⟩
  | regexpConsumer n p =>
    have hp : p.offsetsInRange := hc.1
    cases hf : p.FindStringIndex s with
    | none => exact ⟨_, (regexpConsumer_Consume_spec n p s mv).2 hf⟩
    | some loc =>
      obtain ⟨b, e⟩ := loc
      obtain ⟨j, _, _, _, _, hj⟩ :=
        (regexpConsumer_Consume_spec n p s mv).1 b e hf (hp s b e hf).2
      exact ⟨_, hj⟩

/-- A `Consume` call that returns without error takes a prefix off its
cursor: a literal consumer takes its (non-empty) text and leaves the capture
map alone; a segment or regexp consumer takes a value and stores it under its
name. -/
theorem Consume_ok_spec (c : consumer) (s : Str) (mv : Values) (r : Consumed)
    (hc : c.Consume s mv = some r) (hr : r.err = none) :
    match c with
    | .literalConsumer t => r.mv = mv ∧ s = t ++ r.rest
    | .segmentConsumer n => ∃ val, r.mv = mv.set n val ∧ s = val ++ r.rest
    | .regexpConsumer n _ => ∃ val, r.mv = mv.set n val ∧ s = val ++ r.rest := by
  cases c with
  | literalConsumer t =>
    simp only
    by_cases hp : t <+: s
    · obtain ⟨u, rfl⟩ := hp
      by_cases ht : t = []
      · subst ht
        simp only [consumer.Consume, List.nil_append] at hc
        rw [literalConsumer_Consume_nil] at hc
        rw [← Option.some.inj hc] at hr
        simp at hr
      · simp only [consumer.Consume] at hc
        rw [literalConsumer_Consume_append t u mv ht] at hc
        rw [← Option.some.inj hc]
        exact ⟨rfl, rfl⟩
    · simp only [consumer.Consume] at hc
      have hmis := literalConsumer_Consume_of_not_prefix t s mv hp
      rw [hmis] at hc
      rw [← Option.some.inj hc] at hr
      simp at hr
  | segmentConsumer n =>
    simp only
    obtain ⟨val, rest, he, _, h2, _, _⟩ := segmentConsumer_Consume_ok n s mv r hc hr
    exact ⟨val, by rw [he], by rw [he]; exact h2⟩
  | regexpConsumer n p =>
    simp only
    simp only [consumer.Consume, regexpConsumer.Consume] at hc
    cases hf : p.FindStringIndex s with
    | none =>
      simp only [hf] at hc
      rw [← Option.some.inj hc] at hr
      simp at hr
    | some loc =>
      simp only [hf] at hc
      by_cases hl : loc.2 ≤ s.length
      · simp only [sliceFrom, hl, if_true] at hc
        cases hi : IndexByte (s.drop loc.2) '/' with
        | none =>
          simp only [hi] at hc
          rw [← Option.some.inj hc]
          exact ⟨s, rfl, by simp⟩
        | some i =>
          simp only [hi, sliceTo] at hc
          by_cases hj : i + loc.2 ≤ s.length
          · simp only [hj, if_true] at hc
            rw [← Option.some.inj hc]
            exact ⟨s.take (i + loc.2), rfl, (List.take_append_drop _ s).symm⟩
          · simp [hj] at hc
      · simp [sliceFrom, hl] at hc

/-! ## The loop of `Match` -/

theorem IndexByte_lt {s : Str} {c : Char} {i : Nat} (h : IndexByte s c = some i) :
    i < s.length := by
  induction s generalizing i with
  | nil => simp [IndexByte] at h
  | cons x xs ih =>
    by_cases hx : x = c
    · simp [IndexByte, hx] at h
      subst h
      simp
    · simp only [IndexByte, hx, if_false] at h
      cases hi : IndexByte xs c with
      | none => simp [hi] at h
      | some j =>
        simp [hi] at h
        subst h
        have := ih hi
        simp
        omega

theorem chainOffsetsInRange_cons {c : consumer} {cs : List consumer}
    (h : chainOffsetsInRange (c :: cs)) :
    chainOffsetsInRange [c] ∧ chainOffsetsInRange cs := by
  cases c with
  | literalConsumer t => exact ⟨trivial, h⟩
  | segmentConsumer n => exact ⟨trivial, h⟩
  | regexpConsumer n p => exact ⟨⟨h.1, trivial⟩, h.2⟩

theorem matchLoop_returns (cs : List consumer) :
    ∀ (s : Str) (mv : Values), chainOffsetsInRange cs → ∃ res, matchLoop cs s mv = some res := by
  induction cs with
  | nil => intro s mv _; exact ⟨_, rfl⟩
  | cons c cs ih =>
    intro s mv h
    obtain ⟨h1, h2⟩ := chainOffsetsInRange_cons h
    obtain ⟨r, hr⟩ := Consume_returns c s mv h1
    rw [matchLoop]
    simp only [hr]
    cases he : r.err with
    | some e => exact ⟨_, rfl⟩
    | none =>
      by_cases hrest : r.rest = []
      · simp only [hrest, if_true]
        exact ⟨_, rfl⟩
      · simp only [hrest, if_false]
        exact ih r.rest r.mv h2

/-- C15: `Match` never panics on any input path. For every consumer chain
whose regexp consumers report match offsets with `0 ≤ loc[0] ≤ loc[1] ≤
len(s)`, and every input, `Match` returns a capture set or an error; the
slice expressions `s[:i]`, `s[i:]` of the segment consumer and `s[loc[1]:]`,
`s[:i+loc[1]]`, `s[i+loc[1]:]` of the regexp consumer are all within
bounds. -/
theorem Match_never_panics (p : Matcher) (hp : chainOffsetsInRange p.consumers) (s : Str) :
    (∃ res, p.Match s = some res) ∧
    (∀ (t : Str) (i : Nat), IndexByte t '/' = some i →
      sliceTo t i = some (t.take i) ∧ sliceFrom t i = some (t.drop i)) ∧
    (∀ (t : Str) (e i : Nat), e ≤ t.length →
      sliceFrom t e = some (t.drop e) ∧
      (IndexByte (t.drop e) '/' = some i →
        sliceTo t (i + e) = some (t.take (i + e)) ∧
        sliceFrom t (i + e) = some (t.drop (i + e)))) := by
  refine ⟨?_, ?_, ?_⟩
  · obtain ⟨res, hres⟩ := matchLoop_returns p.consumers s [] hp
    unfold Matcher.Match
    rw [hres]
    cases res with
    | error e => exact ⟨_, rfl⟩
    | ok x =>
      obtain ⟨s1, mv⟩ := x
      by_cases h1 : s1 = []
      · simp [h1]
      · simp [h1]
  · intro t i hi
    have := IndexByte_lt hi
    simp [sliceTo, sliceFrom]
    omega
  · intro t e i he
    refine ⟨by simp [sliceFrom, he], ?_⟩
    intro hi
    have := IndexByte_lt hi
    simp at this
    simp [sliceTo, sliceFrom]
    omega

/-- The chain of `/foo/bar/baz/{id:^[0-9]+}/view`, whose regexp keeps its
offsets in range, returns on `/foo/bar/baz/0123456/view`. -/
theorem Match_never_panics_witness :
    (∃ res, (Matcher.mk [.literalConsumer "/foo/bar/baz/".toList,
        .regexpConsumer "id".toList reLeadingDigits,
        .literalConsumer "/view".toList]).Match "/foo/bar/baz/0123456/view".toList
      = some res) ∧
    (Matcher.mk [.literalConsumer "/foo/bar/baz/".toList,
        .regexpConsumer "id".toList reLeadingDigits,
        .literalConsumer "/view".toList]).Match "/foo/bar/baz/0123456/view".toList
      = some (.ok [("id".toList, "0123456".toList)]) :=
  ⟨(Match_never_panics
      (Matcher.mk [.literalConsumer "/foo/bar/baz/".toList,
        .regexpConsumer "id".toList reLeadingDigits, .literalConsumer "/view".toList])
      ⟨by
        intro s b e h
        simp only [reLeadingDigits] at h
        split at h
        · simp at h
        · simp only [Option.some.injEq, Prod.mk.injEq] at h
          obtain ⟨rfl, rfl⟩ := h
          exact ⟨Nat.zero_le _, (List.takeWhile_sublist _).length_le⟩, trivial⟩
      "/foo/bar/baz/0123456/view".toList).1, by decide⟩

/-- The loop of `Match` on a chain extended by further consumers: when the
loop on the first part ends normally with an empty cursor, the loop on the
whole chain ends the same way and runs the same consumers. -/
theorem matchLoop_append (pre : List consumer) :
    ∀ (post : List consumer) (s : Str) (mv0 mv : Values), pre ≠ [] →
      matchLoop pre s mv0 = some (.ok ([], mv)) →
      matchLoop (pre ++ post) s mv0 = some (.ok ([], mv)) ∧
        matchTrace (pre ++ post) s mv0 = matchTrace pre s mv0 := by
  induction pre with
  | nil => intro post s mv0 mv h _; exact absurd rfl h
  | cons c cs ih =>
    intro post s mv0 mv _ h
    rw [matchLoop] at h
    rw [List.cons_append, matchLoop, matchTrace, matchTrace]
    cases hc : c.Consume s mv0 with
    | none => simp [hc] at h
    | some r =>
      cases he : r.err with
      | some e => simp [hc, he] at h
      | none =>
        by_cases hrest : r.rest = []
        · simp only [hc, he, hrest, if_true] at h ⊢
          exact ⟨h, trivial⟩
        · simp only [hc, he, hrest, if_false] at h ⊢
          have hcs : cs ≠ [] := by
            intro e
            subst e
            simp only [matchLoop, Option.some.injEq, Except.ok.injEq, Prod.mk.injEq] at h
            exact hrest h.1
          obtain ⟨h1, h2⟩ := ih post r.rest r.mv mv hcs h
          exact ⟨h1, by rw [h2]⟩

/-- C12: early stop. If the loop of `Match` run on the consumers `c1 .. ck`
(the non-empty list `pre`) ends without error and with an empty cursor,
having recorded the captures `mv`, then on the longer chain
`c1 .. ck, ck+1 .. cn` (`pre ++ post`, any `post`) `Match` succeeds with
exactly the captures `mv`, and the consumers it runs are those it runs on
`c1 .. ck`: none of `ck+1 .. cn` is run. -/
theorem Match_early_stop (pre post : List consumer) (s : Str) (mv : Values)
    (hpre : pre ≠ []) (h : matchLoop pre s [] = some (.ok ([], mv))) :
    (Matcher.mk (pre ++ post)).Match s = some (.ok mv) ∧
      matchTrace (pre ++ post) s [] = matchTrace pre s [] := by
  obtain ⟨h1, h2⟩ := matchLoop_append pre post s [] mv hpre h
  exact ⟨by simp [Matcher.Match, h1], h2⟩

/-- The chain of `/foo/bar/baz/{id}/view` accepts `/foo/bar/baz/abc` with
`id = abc`; the literal `/view` is not run. -/
theorem Match_early_stop_witness :
    (Matcher.mk ([.literalConsumer "/foo/bar/baz/".toList, .segmentConsumer "id".toList] ++
        [.literalConsumer "/view".toList])).Match "/foo/bar/baz/abc".toList
      = some (.ok [("id".toList, "abc".toList)]) ∧
    matchTrace ([.literalConsumer "/foo/bar/baz/".toList, .segmentConsumer "id".toList] ++
        [.literalConsumer "/view".toList]) "/foo/bar/baz/abc".toList []
      = matchTrace [.literalConsumer "/foo/bar/baz/".toList, .segmentConsumer "id".toList]
          "/foo/bar/baz/abc".toList [] :=
  Match_early_stop [.literalConsumer "/foo/bar/baz/".toList, .segmentConsumer "id".toList]
    [.literalConsumer "/view".toList] "/foo/bar/baz/abc".toList
    [("id".toList, "abc".toList)] (by simp) (by decide)

/-! ## What a successful match consumed and recorded -/

/-- A `Consume` call that returns without error removes from its cursor
exactly the text the step stands for. -/
theorem consumedBy_append_rest (c : consumer) (s : Str) (mv : Values) (r : Consumed)
    (hc : c.Consume s mv = some r) (hr : r.err = none) :
    s = consumedBy (c, s, mv) ++ r.rest := by
  have h := Consume_ok_spec c s mv r hc hr
  cases c with
  | literalConsumer t => exact h.2
  | segmentConsumer n =>
    obtain ⟨val, h1, h2⟩ := h
    have hrec : consumedBy (consumer.segmentConsumer n, s, mv) = val := by
      simp [consumedBy, recordedBy, hc, hr, h1, Values.find_set_self]
    rw [hrec]
    exact h2
  | regexpConsumer n p =>
    obtain ⟨val, h1, h2⟩ := h
    have hrec : consumedBy (consumer.regexpConsumer n p, s, mv) = val := by
      simp [consumedBy, recordedBy, hc, hr, h1, Values.find_set_self]
    rw [hrec]
    exact h2

theorem matchLoop_consumed (cs : List consumer) :
    ∀ (s : Str) (mv0 : Values) (res : Str × Values),
      matchLoop cs s mv0 = some (.ok res) →
      s = ((matchTrace cs s mv0).map consumedBy).flatten ++ res.1 := by
  induction cs with
  | nil =>
    intro s mv0 res h
    simp only [matchLoop, Option.some.injEq, Except.ok.injEq] at h
    simp [matchTrace, ← h]
  | cons c cs ih =>
    intro s mv0 res h
    rw [matchLoop] at h
    rw [matchTrace]
    cases hc : c.Consume s mv0 with
    | none => simp [hc] at h
    | some r =>
      cases he : r.err with
      | some e => simp [hc, he] at h
      | none =>
        have h0 := consumedBy_append_rest c s mv0 r hc he
        by_cases hrest : r.rest = []
        · simp only [hc, he, hrest, if_true, Option.some.injEq, Except.ok.injEq] at h ⊢
          rw [hrest] at h0
          simp [← h, ← h0]
        · simp only [hc, he, hrest, if_false] at h ⊢
          have h1 := ih r.rest r.mv res h
          simp only [List.map_cons, List.flatten_cons, List.append_assoc]
          rw [← h1]
          exact h0

/-- C20: a successful match accounts for every unit of the input. When
`Match s` succeeds, `s` is the concatenation, over the consumers that were
run and in that order, of the literal text (literal consumer) or the value
recorded (segment or regexp consumer); and each `Consume` call that returns
without error returns a suffix of its cursor, the removed prefix being that
literal text or recorded value. -/
theorem Match_accounts_for_input (p : Matcher) (s : Str) (mv : Values)
    (h : p.Match s = some (.ok mv)) :
    s = ((matchTrace p.consumers s []).map consumedBy).flatten ∧
    ∀ (c : consumer) (cur : Str) (m : Values) (r : Consumed),
      c.Consume cur m = some r → r.err = none → cur = consumedBy (c, cur, m) ++ r.rest := by
  refine ⟨?_, fun c cur m r hc hr => consumedBy_append_rest c cur m r hc hr⟩
  unfold Matcher.Match at h
  cases hl : matchLoop p.consumers s [] with
  | none => simp [hl] at h
  | some x =>
    cases x with
    | error e => simp [hl] at h
    | ok res =>
      obtain ⟨s1, mv1⟩ := res
      have h1 := matchLoop_consumed p.consumers s [] (s1, mv1) hl
      by_cases hs : s1 = []
      · subst hs
        simpa using h1
      · simp [hl, hs] at h

/-- The chain of `/a/{id}/view` on `/a/xyz/view`: the input is `/a/`, then
`xyz`, then `/view`. -/
theorem Match_accounts_for_input_witness :
    ("/a/xyz/view".toList =
      ((matchTrace [.literalConsumer "/a/".toList, .segmentConsumer "id".toList,
          .literalConsumer "/view".toList] "/a/xyz/view".toList []).map consumedBy).flatten ∧
      ∀ (c : consumer) (cur : Str) (m : Values) (r : Consumed),
        c.Consume cur m = some r → r.err = none → cur = consumedBy (c, cur, m) ++ r.rest) ∧
    ((matchTrace [.literalConsumer "/a/".toList, .segmentConsumer "id".toList,
        .literalConsumer "/view".toList] "/a/xyz/view".toList []).map consumedBy)
      = ["/a/".toList, "xyz".toList, "/view".toList] :=
  ⟨Match_accounts_for_input
      (Matcher.mk [.literalConsumer "/a/".toList, .segmentConsumer "id".toList,
        .literalConsumer "/view".toList])
      "/a/xyz/view".toList [("id".toList, "xyz".toList)] (by decide), by decide⟩

theorem Values.find_append (l1 l2 : Values) (k : Str) :
    Values.find (l1 ++ l2) k =
      match Values.find l1 k with
      | some v => some v
      | none => Values.find l2 k := by
  induction l1 with
  | nil => simp [Values.find]
  | cons e rest ih =>
    obtain ⟨k1, x⟩ := e
    by_cases h : k1 = k
    · simp [Values.find, h]
    · simp [Values.find, h, ih]

theorem Values.mem_of_find (l : Values) (k v : Str) (h : Values.find l k = some v) :
    (k, v) ∈ l := by
  induction l with
  | nil => simp [Values.find] at h
  | cons e rest ih =>
    obtain ⟨k1, x⟩ := e
    by_cases h1 : k1 = k
    · simp [Values.find, h1] at h
      simp [h1, h]
    · simp only [Values.find, h1, if_false] at h
      exact List.mem_cons_of_mem _ (ih h)

/-- The capture map after a `Consume` call that returns without error: the
entry the step recorded, and below it the map as it was. -/
theorem Consume_find (c : consumer) (s : Str) (mv : Values) (r : Consumed)
    (hc : c.Consume s mv = some r) (hr : r.err = none) (k : Str) :
    r.mv.find k =
      match Values.find (recordedBy (c, s, mv)).toList k with
      | some v => some v
      | none => mv.find k := by
  have h := Consume_ok_spec c s mv r hc hr
  cases c with
  | literalConsumer t =>
    simp [recordedBy, Values.find, h.1]
  | segmentConsumer n =>
    obtain ⟨val, h1, _⟩ := h
    have hrec : recordedBy (consumer.segmentConsumer n, s, mv) = some (n, val) := by
      simp [recordedBy, hc, hr, h1, Values.find_set_self]
    rw [hrec, h1]
    by_cases hk : k = n
    · subst hk
      simp [Values.find, Values.find_set_self]
    · have hk2 : ¬ n = k := fun e => hk e.symm
      rw [Values.find_set_ne mv n val k hk]
      simp [Values.find, hk2]
  | regexpConsumer n p =>
    obtain ⟨val, h1, _⟩ := h
    have hrec : recordedBy (consumer.regexpConsumer n p, s, mv) = some (n, val) := by
      simp [recordedBy, hc, hr, h1, Values.find_set_self]
    rw [hrec, h1]
    by_cases hk : k = n
    · subst hk
      simp [Values.find, Values.find_set_self]
    · have hk2 : ¬ n = k := fun e => hk e.symm
      rw [Values.find_set_ne mv n val k hk]
      simp [Values.find, hk2]

theorem matchLoop_find (cs : List consumer) :
    ∀ (s : Str) (mv0 : Values) (res : Str × Values),
      matchLoop cs s mv0 = some (.ok res) → ∀ k : Str,
      res.2.find k =
        match Values.find ((matchTrace cs s mv0).filterMap recordedBy).reverse k with
        | some v => some v
        | none => mv0.find k := by
  induction cs with
  | nil =>
    intro s mv0 res h k
    simp only [matchLoop, Option.some.injEq, Except.ok.injEq] at h
    simp [matchTrace, Values.find, ← h]
  | cons c cs ih =>
    intro s mv0 res h k
    rw [matchLoop] at h
    rw [matchTrace]
    cases hc : c.Consume s mv0 with
    | none => simp [hc] at h
    | some r =>
      cases he : r.err with
      | some e => simp [hc, he] at h
      | none =>
        have h0 := Consume_find c s mv0 r hc he k
        by_cases hrest : r.rest = []
        · simp only [hc, he, hrest, if_true, Option.some.injEq, Except.ok.injEq] at h ⊢
          rw [← h]
          simp only [List.filterMap_cons, List.filterMap_nil]
          cases hrec : recordedBy (c, s, mv0) with
          | none => simpa [hrec] using h0
          | some nv => simpa [hrec] using h0
        · simp only [hc, he, hrest, if_false] at h ⊢
          have h1 := ih r.rest r.mv res h k
          rw [h1, h0]
          simp only [List.filterMap_cons]
          cases hrec : recordedBy (c, s, mv0) with
          | none => simp [Values.find]
          | some nv =>
            simp only [List.reverse_cons, Values.find_append, Option.toList]
            cases Values.find (List.filterMap recordedBy (matchTrace cs r.rest r.mv)).reverse k with
            | none => rfl
            | some v => rfl

/-- The value a segment or regexp step cut from its cursor is the value it
stored in the capture map under its name. -/
theorem capturedBy_eq_recordedBy (e : consumer × Str × Values) :
    capturedBy e = recordedBy e := by
  obtain ⟨c, s, mv⟩ := e
  have key : ∀ (n : Str) (r : Consumed) (val : Str), r.mv = mv.set n val →
      s = val ++ r.rest →
      some (n, s.take (s.length - r.rest.length)) = (r.mv.find n).map (fun v => (n, v)) := by
    intro n r val h1 h2
    have hlen : s.length - r.rest.length = val.length := by
      have := congrArg List.length h2
      simp only [List.length_append] at this
      omega
    have htake : s.take (s.length - r.rest.length) = val := by
      rw [hlen]
      conv_lhs => rw [h2]
      simp
    rw [htake, h1, Values.find_set_self]
    rfl
  cases c with
  | literalConsumer t => rfl
  | segmentConsumer n =>
    simp only [capturedBy, recordedBy]
    cases hc : (consumer.segmentConsumer n).Consume s mv with
    | none => rfl
    | some r =>
      cases he : r.err with
      | some err => simp only [he]
      | none =>
        obtain ⟨val, h1, h2⟩ := Consume_ok_spec _ s mv r hc he
        simp only [he]
        exact key n r val h1 h2
  | regexpConsumer n p =>
    simp only [capturedBy, recordedBy]
    cases hc : (consumer.regexpConsumer n p).Consume s mv with
    | none => rfl
    | some r =>
      cases he : r.err with
      | some err => simp only [he]
      | none =>
        obtain ⟨val, h1, h2⟩ := Consume_ok_spec _ s mv r hc he
        simp only [he]
        exact key n r val h1 h2

/-- C14: duplicate capture names overwrite. Take as the value a segment or
regexp consumer records the text it cut from the front of its cursor
(`capturedBy`). When `Match s` succeeds with the capture set `mv`, the value
`mv` holds for a name `k` is the value recorded by the last consumer carrying
the name `k` among the segment and regexp consumers that were run (a later
capture under `k` replaces an earlier one), and `mv` has no entry for a name
that none of them carries. -/
theorem Match_last_capture_wins (p : Matcher) (s : Str) (mv : Values)
    (h : p.Match s = some (.ok mv)) (k : Str) :
    mv.find k = Values.find ((matchTrace p.consumers s []).filterMap capturedBy).reverse k ∧
    (∀ pre e post v, matchTrace p.consumers s [] = pre ++ e :: post →
      capturedBy e = some (k, v) → (∀ x ∈ post, ∀ w, capturedBy x ≠ some (k, w)) →
      mv.find k = some v) ∧
    (∀ v, mv.find k = some v →
      ∃ e ∈ matchTrace p.consumers s [], capturedBy e = some (k, v)) := by
  have hfun : capturedBy = recordedBy := funext capturedBy_eq_recordedBy
  have hfind : mv.find k =
      Values.find ((matchTrace p.consumers s []).filterMap capturedBy).reverse k := by
    rw [hfun]
    unfold Matcher.Match at h
    cases hl : matchLoop p.consumers s [] with
    | none => simp [hl] at h
    | some x =>
      cases x with
      | error e => simp [hl] at h
      | ok res =>
        obtain ⟨s1, mv1⟩ := res
        have h1 := matchLoop_find p.consumers s [] (s1, mv1) hl k
        by_cases hs : s1 = []
        · simp only [hl, hs, ne_eq, not_true_eq_false, if_false, Option.some.injEq,
            Except.ok.injEq] at h
          rw [← h]
          simp only [h1, Values.find]
          cases Values.find (List.filterMap recordedBy (matchTrace p.consumers s [])).reverse k with
          | none => rfl
          | some v => rfl
        · simp [hl, hs] at h
  refine ⟨hfind, ?_, ?_⟩
  · intro pre e post v htr he hpost
    rw [hfind, htr, List.filterMap_append, List.filterMap_cons, he, List.reverse_append,
      List.reverse_cons, Values.find_append, Values.find_append]
    have hnone : Values.find (List.filterMap capturedBy post).reverse k = none := by
      apply Values.find_eq_none
      intro w hw
      rw [List.mem_reverse, List.mem_filterMap] at hw
      obtain ⟨x, hx, hxw⟩ := hw
      exact hpost x hx w hxw
    rw [hnone]
    simp [Values.find]
  · intro v hv
    rw [hfind] at hv
    have hm := Values.mem_of_find _ k v hv
    rw [List.mem_reverse, List.mem_filterMap] at hm
    exact hm

/-- The chain `[Segment a, Literal "/", Segment a]` on `x/y`: the two segment
consumers cut `x` and `y`, and `Match` yields `a = y`. The same with a regexp
consumer as the second one. -/
theorem Match_last_capture_wins_witness :
    ((Values.find [("a".toList, "y".toList)] "a".toList =
        Values.find ((matchTrace [.segmentConsumer "a".toList, .literalConsumer "/".toList,
          .segmentConsumer "a".toList] "x/y".toList []).filterMap capturedBy).reverse
          "a".toList) ∧
      (∀ pre e post v,
        matchTrace [.segmentConsumer "a".toList, .literalConsumer "/".toList,
          .segmentConsumer "a".toList] "x/y".toList [] = pre ++ e :: post →
        capturedBy e = some ("a".toList, v) →
        (∀ x ∈ post, ∀ w, capturedBy x ≠ some ("a".toList, w)) →
        Values.find [("a".toList, "y".toList)] "a".toList = some v) ∧
      (∀ v, Values.find [("a".toList, "y".toList)] "a".toList = some v →
        ∃ e ∈ matchTrace [.segmentConsumer "a".toList, .literalConsumer "/".toList,
          .segmentConsumer "a".toList] "x/y".toList [], capturedBy e = some ("a".toList, v))) ∧
    (Matcher.mk [.segmentConsumer "a".toList, .literalConsumer "/".toList,
        .segmentConsumer "a".toList]).Match "x/y".toList
      = some (.ok [("a".toList, "y".toList)]) ∧
    (matchTrace [.segmentConsumer "a".toList, .literalConsumer "/".toList,
        .segmentConsumer "a".toList] "x/y".toList []).filterMap capturedBy
      = [("a".toList, "x".toList), ("a".toList, "y".toList)] ∧
    (Matcher.mk [.segmentConsumer "a".toList, .literalConsumer "/".toList,
        .regexpConsumer "a".toList reToEnd]).Match "x/y".toList
      = some (.ok [("a".toList, "y".toList)]) ∧
    (matchTrace [.segmentConsumer "a".toList, .literalConsumer "/".toList,
        .regexpConsumer "a".toList reToEnd] "x/y".toList []).filterMap capturedBy
      = [("a".toList, "x".toList), ("a".toList, "y".toList)] :=
  ⟨Match_last_capture_wins
      (Matcher.mk [.segmentConsumer "a".toList, .literalConsumer "/".toList,
        .segmentConsumer "a".toList])
      "x/y".toList [("a".toList, "y".toList)] (by decide) "a".toList,
    by decide, by decide, by decide, by decide⟩

/-! ## Dispatch in `mux.go` -/

theorem serveLoop_skip {H : Type} (req : Request) (pre : List (path H)) :
    ∀ rest : List (path H), (∀ q ∈ pre, q.rejects req) →
      serveLoop (pre ++ rest) req = serveLoop rest req := by
  induction pre with
  | nil => intro rest _; rfl
  | cons q qs ih =>
    intro rest h
    have hq := h q (by simp)
    have hqs : ∀ x ∈ qs, x.rejects req := fun x hx => h x (List.mem_cons_of_mem _ hx)
    rw [List.cons_append, serveLoop]
    rcases hq with hm | ⟨e, he⟩
    · rw [if_pos hm]
      exact ih rest hqs
    · by_cases hm : q.method ≠ [] ∧ req.Method ≠ q.method
      · rw [if_pos hm]
        exact ih rest hqs
      · rw [if_neg hm]
        simp only [he]
        exact ih rest hqs

theorem serveLoop_handled {H : Type} (req : Request) (paths : List (path H)) :
    ∀ (h : H) (mv : Values), serveLoop paths req = some (Response.handled h mv) →
      ∃ pre p post, paths = pre ++ p :: post ∧ (∀ q ∈ pre, q.rejects req) ∧
        (p.method = [] ∨ req.Method = p.method) ∧
        p.matcher.Match req.Path = some (.ok mv) ∧ p.handler = h := by
  induction paths with
  | nil => intro h mv hs; simp [serveLoop] at hs
  | cons q qs ih =>
    intro h mv hs
    rw [serveLoop] at hs
    by_cases hm : q.method ≠ [] ∧ req.Method ≠ q.method
    · rw [if_pos hm] at hs
      obtain ⟨pre, p, post, h1, h2, h3⟩ := ih h mv hs
      refine ⟨q :: pre, p, post, by rw [h1]; rfl, ?_, h3⟩
      intro x hx
      rcases List.mem_cons.mp hx with e | e
      · rw [e]; exact Or.inl hm
      · exact h2 x e
    · rw [if_neg hm] at hs
      cases hq : q.matcher.Match req.Path with
      | none => simp [hq] at hs
      | some res =>
        cases res with
        | error e =>
          simp only [hq] at hs
          obtain ⟨pre, p, post, h1, h2, h3⟩ := ih h mv hs
          refine ⟨q :: pre, p, post, by rw [h1]; rfl, ?_, h3⟩
          intro x hx
          rcases List.mem_cons.mp hx with e1 | e1
          · rw [e1]; exact Or.inr ⟨e, hq⟩
          · exact h2 x e1
        | ok mv1 =>
          simp only [hq, Option.some.injEq, Response.handled.injEq] at hs
          refine ⟨[], q, qs, rfl, by simp, ?_, by rw [← hs.2]; exact hq, hs.1⟩
          by_cases h0 : q.method = []
          · exact Or.inl h0
          · right
            by_contra hne
            exact hm ⟨h0, hne⟩

theorem serveLoop_notFound {H : Type} (req : Request) (paths : List (path H)) :
    serveLoop paths req = some Response.notFound → ∀ q ∈ paths, q.rejects req := by
  induction paths with
  | nil => intro _ q hq; simp at hq
  | cons q qs ih =>
    intro hs
    rw [serveLoop] at hs
    by_cases hm : q.method ≠ [] ∧ req.Method ≠ q.method
    · rw [if_pos hm] at hs
      intro x hx
      rcases List.mem_cons.mp hx with e | e
      · rw [e]; exact Or.inl hm
      · exact ih hs x e
    · rw [if_neg hm] at hs
      cases hq : q.matcher.Match req.Path with
      | none => simp [hq] at hs
      | some res =>
        cases res with
        | error e =>
          simp only [hq] at hs
          intro x hx
          rcases List.mem_cons.mp hx with e1 | e1
          · rw [e1]; exact Or.inr ⟨e, hq⟩
          · exact ih hs x e1
        | ok mv1 => simp [hq] at hs

/-- C11: dispatch is first-match in registration order. `Handler` appends
the new route to the list. `ServeHTTP` calls the handler of the first route
whose method is empty or equals the request method and whose Matcher accepts
the request path, with the captures of that match; it calls no other
handler; when every route is passed over (method mismatch or `Match` error)
it calls no handler and answers 404, and only then. The route that handles a
`HEAD` request is never one registered for `GET`. -/
theorem ServeHTTP_first_match {H : Type} (r : Router H) (req : Request) :
    (∀ pre p post mv, r.paths = pre ++ p :: post → (∀ q ∈ pre, q.rejects req) →
      (p.method = [] ∨ req.Method = p.method) →
      p.matcher.Match req.Path = some (.ok mv) →
      r.ServeHTTP req = some (Response.handled p.handler mv)) ∧
    ((∀ q ∈ r.paths, q.rejects req) → r.ServeHTTP req = some Response.notFound) ∧
    (∀ h mv, r.ServeHTTP req = some (Response.handled h mv) →
      ∃ pre p post, r.paths = pre ++ p :: post ∧ (∀ q ∈ pre, q.rejects req) ∧
        (p.method = [] ∨ req.Method = p.method) ∧
        p.matcher.Match req.Path = some (.ok mv) ∧ p.handler = h ∧
        (req.Method = "HEAD".toList → p.method ≠ "GET".toList)) ∧
    (r.ServeHTTP req = some Response.notFound → ∀ q ∈ r.paths, q.rejects req) ∧
    (∀ compile method pattern hh r1,
      r.Handler compile method pattern hh = some (.ok r1) →
      ∃ m, r1.paths = r.paths ++ [{ method := method, matcher := m, handler := hh }]) := by
  refine ⟨?_, ?_, ?_, ?_, ?_⟩
  · intro pre p post mv hp hpre hm hmatch
    unfold Router.ServeHTTP
    rw [hp, serveLoop_skip req pre (p :: post) hpre, serveLoop]
    have hn : ¬ (p.method ≠ [] ∧ req.Method ≠ p.method) := by
      rintro ⟨h1, h2⟩
      rcases hm with h | h
      · exact h1 h
      · exact h2 h
    rw [if_neg hn]
    simp only [hmatch]
  · intro hall
    unfold Router.ServeHTTP
    have h := serveLoop_skip req r.paths [] hall
    rw [List.append_nil] at h
    rw [h]
    rfl
  · intro h mv hs
    obtain ⟨pre, p, post, h1, h2, h3, h4, h5⟩ := serveLoop_handled req r.paths h mv hs
    refine ⟨pre, p, post, h1, h2, h3, h4, h5, ?_⟩
    intro hhead hget
    rcases h3 with h3 | h3
    · rw [hget] at h3
      exact absurd h3 (by decide)
    · rw [hget, hhead] at h3
      exact absurd h3 (by decide)
  · exact serveLoop_notFound req r.paths
  · intro compile method pattern hh r1 hr
    unfold Router.Handler at hr
    cases hp : Parse compile pattern with
    | none => simp [hp] at hr
    | some res =>
      cases res with
      | error e => simp [hp] at hr
      | ok m =>
        simp only [hp, Option.some.injEq, Except.ok.injEq] at hr
        exact ⟨m, by rw [← hr]⟩

/-- A router with a `GET` route for `/foo/{id}` (handler 1) and a route for
any method on `/foo/{id}` (handler 2): `GET /foo/7` goes to handler 1 with
`id = 7`. -/
theorem ServeHTTP_first_match_witness :
    Router.ServeHTTP
      (Router.mk [
        { method := "GET".toList,
          matcher := Matcher.mk [.literalConsumer "/foo/".toList, .segmentConsumer "id".toList],
          handler := (1 : Nat) },
        { method := [],
          matcher := Matcher.mk [.literalConsumer "/foo/".toList, .segmentConsumer "id".toList],
          handler := (2 : Nat) }])
      { Method := "GET".toList, Path := "/foo/7".toList }
      = some (Response.handled 1 [("id".toList, "7".toList)]) :=
  (ServeHTTP_first_match
      (Router.mk [
        { method := "GET".toList,
          matcher := Matcher.mk [.literalConsumer "/foo/".toList, .segmentConsumer "id".toList],
          handler := (1 : Nat) },
        { method := [],
          matcher := Matcher.mk [.literalConsumer "/foo/".toList, .segmentConsumer "id".toList],
          handler := (2 : Nat) }])
      { Method := "GET".toList, Path := "/foo/7".toList }).1
    [] _ _ [("id".toList, "7".toList)] rfl (by simp) (Or.inr rfl) (by decide)

/-! ## The tokenizer on inputs without U+FFFD -/

theorem peek_canon (t : tokenizer) (hc : t.Canon) :
    t.peek = (t.pending.headD RuneError,
      tokenizer.peeked t.pending t.expectRegexp t.offset) := by
  obtain ⟨src, er, eof, off, lh, ln, buf⟩ := t
  obtain ⟨h1, h2, _, h4⟩ := hc
  simp only at h1 h2 h4
  subst h1 h2
  cases eof with
  | true =>
    obtain ⟨h5, h6⟩ := h4 rfl
    subst h5 h6
    simp [tokenizer.peek, tokenizer.pending, tokenizer.peeked]
  | false =>
    by_cases hb : buf = RuneError
    · subst hb
      cases src with
      | nil => simp [tokenizer.peek, tokenizer.pending, tokenizer.peeked]
      | cons x xs => simp [tokenizer.peek, tokenizer.pending, tokenizer.peeked]
    · simp [tokenizer.peek, tokenizer.pending, tokenizer.peeked, hb]

theorem pending_fresh (p : List Char) (er : Bool) (off : Int) :
    (tokenizer.fresh p er off).pending = p := by
  simp [tokenizer.fresh, tokenizer.pending]

theorem pending_peeked (p : List Char) (er : Bool) (off : Int) (hp : RuneError ∉ p) :
    (tokenizer.peeked p er off).pending = p := by
  cases p with
  | nil => simp [tokenizer.peeked, tokenizer.pending]
  | cons x xs =>
    have hx : x ≠ RuneError := fun e => hp (by simp [e])
    simp [tokenizer.peeked, tokenizer.pending, hx]

theorem canon_fresh (p : List Char) (er : Bool) (off : Int) (hp : RuneError ∉ p) :
    (tokenizer.fresh p er off).Canon := by
  simp [tokenizer.fresh, tokenizer.Canon, hp]

theorem canon_peeked (p : List Char) (er : Bool) (off : Int) (hp : RuneError ∉ p) :
    (tokenizer.peeked p er off).Canon := by
  cases p with
  | nil => simp [tokenizer.peeked, tokenizer.Canon]
  | cons x xs =>
    have hxs : RuneError ∉ xs := fun e => hp (by simp [e])
    simp [tokenizer.peeked, tokenizer.Canon, hxs]

theorem next_peeked_cons (x : Char) (xs : List Char) (er : Bool) (off : Int) :
    (tokenizer.peeked (x :: xs) er off).next = tokenizer.fresh xs er (off + 1) := by
  simp [tokenizer.peeked, tokenizer.next, tokenizer.fresh]

theorem not_mem_pending (t : tokenizer) (hc : t.Canon) : RuneError ∉ t.pending := by
  obtain ⟨src, er, eof, off, lh, ln, buf⟩ := t
  obtain ⟨_, _, h3, _⟩ := hc
  simp only at h3
  cases eof with
  | true => simp [tokenizer.pending]
  | false =>
    by_cases hb : buf = RuneError
    · simp [tokenizer.pending, hb, h3]
    · simp only [tokenizer.pending, hb, if_false, Bool.false_eq_true, List.mem_cons, not_or]
      exact ⟨fun e => hb e.symm, h3⟩

theorem pending_length_le (t : tokenizer) : t.pending.length ≤ t.src.length + 1 := by
  unfold tokenizer.pending
  split
  · simp
  · split
    · simp
    · simp

theorem peeked_expectRegexp (p : List Char) (er : Bool) (off : Int) :
    (tokenizer.peeked p er off).expectRegexp = er := by
  cases p <;> rfl

theorem peeked_offset (p : List Char) (er : Bool) (off : Int) :
    (tokenizer.peeked p er off).offset = off := by
  cases p <;> rfl

/-- The loop of `skipWhitespace` drops the leading white space of the runes
still to be delivered and stops with the next rune looked at. -/
theorem skipWhitespaceLoop_canon (p : List Char) :
    ∀ (t : tokenizer) (fuel : Nat), t.Canon → t.pending = p → p.length + 1 ≤ fuel →
      tokenizer.skipWhitespaceLoop fuel t =
        some (tokenizer.peeked (p.dropWhile IsSpace) t.expectRegexp
          (t.offset + (p.takeWhile IsSpace).length)) := by
  induction p with
  | nil =>
    intro t fuel hc hp hf
    obtain ⟨f, rfl⟩ : ∃ f, fuel = f + 1 := ⟨fuel - 1, by omega⟩
    rw [tokenizer.skipWhitespaceLoop]
    simp [peek_canon t hc, hp]
  | cons x xs ih =>
    intro t fuel hc hp hf
    obtain ⟨f, rfl⟩ : ∃ f, fuel = f + 1 := ⟨fuel - 1, by omega⟩
    have hnm := not_mem_pending t hc
    rw [hp] at hnm
    have hx : x ≠ RuneError := fun e => hnm (by simp [e])
    have hxs : RuneError ∉ xs := fun e => hnm (by simp [e])
    rw [tokenizer.skipWhitespaceLoop]
    simp only [peek_canon t hc, hp, List.headD_cons]
    by_cases hs : IsSpace x = true
    · have hlen : xs.length + 1 ≤ f := by simp at hf; omega
      have h := ih (tokenizer.fresh xs t.expectRegexp (t.offset + 1)) f
        (canon_fresh _ _ _ hxs) (pending_fresh _ _ _) hlen
      simp only [hx, hs, false_or, Bool.true_eq_false, if_false, next_peeked_cons]
      rw [h]
      simp only [tokenizer.fresh, List.dropWhile_cons, List.takeWhile_cons, hs, if_true,
        List.length_cons]
      congr 2
      push_cast
      ring
    · have hs2 : IsSpace x = false := by simpa using hs
      simp [hs2, List.dropWhile_cons, List.takeWhile_cons]

/-- The loop of `literal` reads the runes still to be delivered up to the
first one that ends a literal run in the current mode, and stops with that
rune looked at. -/
theorem literalLoop_canon (p : List Char) :
    ∀ (t : tokenizer) (fuel : Nat) (b : Str), t.Canon → t.pending = p →
      p.length + 1 ≤ fuel →
      tokenizer.literalLoop fuel t b =
        some (b ++ p.takeWhile (inLiteral t.expectRegexp),
          tokenizer.peeked (p.dropWhile (inLiteral t.expectRegexp)) t.expectRegexp
            (t.offset + (p.takeWhile (inLiteral t.expectRegexp)).length)) := by
  induction p with
  | nil =>
    intro t fuel b hc hp hf
    obtain ⟨f, rfl⟩ : ∃ f, fuel = f + 1 := ⟨fuel - 1, by omega⟩
    rw [tokenizer.literalLoop]
    simp [peek_canon t hc, hp]
  | cons x xs ih =>
    intro t fuel b hc hp hf
    obtain ⟨f, rfl⟩ : ∃ f, fuel = f + 1 := ⟨fuel - 1, by omega⟩
    have hnm := not_mem_pending t hc
    rw [hp] at hnm
    have hx : x ≠ RuneError := fun e => hnm (by simp [e])
    have hxs : RuneError ∉ xs := fun e => hnm (by simp [e])
    have hlen : xs.length + 1 ≤ f := by simp at hf; omega
    have h := ih (tokenizer.fresh xs t.expectRegexp (t.offset + 1)) f (b ++ [x])
      (canon_fresh _ _ _ hxs) (pending_fresh _ _ _) hlen
    simp only [tokenizer.fresh] at h
    rw [tokenizer.literalLoop]
    simp only [peek_canon t hc, hp, List.headD_cons, peeked_expectRegexp, next_peeked_cons]
    cases her : t.expectRegexp with
    | true =>
      rw [her] at h
      by_cases hin : x = '}'
      · simp [hin, inLiteral, List.takeWhile_cons, List.dropWhile_cons]
      · have hin2 : inLiteral true x = true := by simp [inLiteral, hin]
        simp only [hin, hx, or_self, if_false, if_true, tokenizer.fresh, h,
          List.takeWhile_cons, List.dropWhile_cons, hin2, List.length_cons]
        simp only [List.append_assoc, List.singleton_append]
        congr 3
        push_cast
        ring
    | false =>
      rw [her] at h
      by_cases hin : x = ':' ∨ x = '{' ∨ x = '}'
      · have hin2 : inLiteral false x = false := by
          rcases hin with e | e | e <;> simp [inLiteral, e]
        have hor : x = ':' ∨ x = '{' ∨ x = '}' ∨ x = RuneError := by
          rcases hin with e | e | e
          · exact Or.inl e
          · exact Or.inr (Or.inl e)
          · exact Or.inr (Or.inr (Or.inl e))
        simp [hor, hin2, List.takeWhile_cons, List.dropWhile_cons]
      · have h1 : x ≠ ':' := fun e => hin (Or.inl e)
        have h2 : x ≠ '{' := fun e => hin (Or.inr (Or.inl e))
        have h3 : x ≠ '}' := fun e => hin (Or.inr (Or.inr e))
        have hin2 : inLiteral false x = true := by simp [inLiteral, h1, h2, h3]
        simp only [h1, h2, h3, hx, or_self, if_false, Bool.false_eq_true, tokenizer.fresh, h,
          List.takeWhile_cons, List.dropWhile_cons, hin2, if_true, List.length_cons]
        simp only [List.append_assoc, List.singleton_append]
        congr 3
        push_cast
        ring

theorem peeked_set_expectRegexp (p : List Char) (er er1 : Bool) (off : Int) :
    { tokenizer.peeked p er off with expectRegexp := er1 } = tokenizer.peeked p er1 off := by
  cases p <;> rfl

theorem position_peeked (p : List Char) (er : Bool) (off : Int) :
    (tokenizer.peeked p er off).position = ⟨1, off + 1⟩ := by
  cases p <;> simp [tokenizer.peeked, tokenizer.position]

theorem not_mem_dropWhile {p : List Char} (f : Char → Bool) (h : RuneError ∉ p) :
    RuneError ∉ p.dropWhile f :=
  fun e => h ((List.dropWhile_sublist f).subset e)

/-- On a tokenizer state of an input without U+FFFD, `Token` returns, and
does what `tokenAt` says about the runes still to be delivered. -/
theorem Token_canon (t : tokenizer) (hc : t.Canon) :
    t.Token = some (tokenAt t.pending t.expectRegexp t.offset) := by
  have hnm := not_mem_pending t hc
  have hq : RuneError ∉ t.pending.dropWhile IsSpace := not_mem_dropWhile IsSpace hnm
  have hfuel : t.pending.length + 1 ≤ t.src.length + 2 := by
    have := pending_length_le t
    omega
  have hskip := skipWhitespaceLoop_canon t.pending t (t.src.length + 2) hc rfl hfuel
  have hc1 := canon_peeked (t.pending.dropWhile IsSpace) t.expectRegexp
    (t.offset + (t.pending.takeWhile IsSpace).length) hq
  have hp1 := pending_peeked (t.pending.dropWhile IsSpace) t.expectRegexp
    (t.offset + (t.pending.takeWhile IsSpace).length) hq
  unfold tokenizer.Token tokenizer.skipWhitespace
  rw [hskip]
  simp only [peek_canon _ hc1, hp1, position_peeked, peeked_expectRegexp, peeked_offset]
  unfold tokenAt
  cases hqe : t.pending.dropWhile IsSpace with
  | nil => simp
  | cons x xs =>
    rw [hqe] at hq hc1 hp1
    have hx : x ≠ RuneError := fun e => hq (by simp [e])
    simp only [List.headD_cons, hx, if_false, next_peeked_cons]
    by_cases h1 : x = '{'
    · simp [h1]
    · by_cases h2 : x = '}'
      · simp [h2]
      · by_cases h3 : x = ':'
        · simp [h3, tokenizer.fresh]
        · have hl := literalLoop_canon (x :: xs) _ (xs.length + 2) [] hc1 hp1
            (by simp)
          simp only [peeked_expectRegexp, peeked_offset, List.nil_append] at hl
          have hsrc : (tokenizer.peeked (x :: xs) t.expectRegexp
              (t.offset + (t.pending.takeWhile IsSpace).length)).src = xs := rfl
          simp only [h1, h2, h3, if_false, tokenizer.literal, hsrc, hl,
            peeked_set_expectRegexp]

/-- What `tokenAt` returns, in terms of the input: the runes to be delivered
split into skipped white space, the text of the token and the runes left for
later; the position is that of the first rune of the text. -/
theorem tokenAt_spec (p : List Char) (er : Bool) (off : Int) (hp : RuneError ∉ p) :
    (tokenAt p er off).2.Canon ∧
    ∃ ws text, p = ws ++ text ++ (tokenAt p er off).2.pending ∧
      (tokenAt p er off).1.Pos = ⟨1, off + ws.length + 1⟩ ∧
      (tokenAt p er off).2.offset = off + ws.length + text.length ∧
      (((tokenAt p er off).1.Tok = .tEOF ∧ (tokenAt p er off).1.Err = some .EOF ∧
          (tokenAt p er off).1.Lit = none ∧ text = [] ∧
          (tokenAt p er off).2.pending = []) ∨
        ((tokenAt p er off).1.Err = none ∧ (tokenAt p er off).1.Lit = some text ∧
          text ≠ [] ∧ (tokenAt p er off).1.Tok ≠ .tEOF)) := by
  have hsplit : p = p.takeWhile IsSpace ++ p.dropWhile IsSpace :=
    (List.takeWhile_append_dropWhile IsSpace p).symm
  have hq : RuneError ∉ p.dropWhile IsSpace := not_mem_dropWhile IsSpace hp
  unfold tokenAt
  cases hqe : p.dropWhile IsSpace with
  | nil =>
    rw [hqe] at hsplit
    refine ⟨canon_peeked [] er _ (by simp), p.takeWhile IsSpace, [], ?_, rfl, ?_, ?_⟩
    · simpa [tokenizer.peeked, tokenizer.pending] using hsplit
    · simp [tokenizer.peeked]
    · left
      simp [tokenizer.peeked, tokenizer.pending]
  | cons x xs =>
    rw [hqe] at hsplit hq
    have hxs : RuneError ∉ xs := fun e => hq (by simp [e])
    simp only
    by_cases h1 : x = '{'
    · simp only [h1, if_true]
      refine ⟨canon_fresh _ _ _ hxs, p.takeWhile IsSpace, ['{'], ?_, rfl, ?_, ?_⟩
      · rw [pending_fresh]
        rw [h1] at hsplit
        simpa using hsplit
      · simp [tokenizer.fresh]
      · right
        simp
    · by_cases h2 : x = '}'
      · subst h2
        simp only [h1, if_false, if_true]
        refine ⟨canon_fresh _ _ _ hxs, p.takeWhile IsSpace, ['}'], ?_, rfl, ?_, ?_⟩
        · rw [pending_fresh]
          simpa using hsplit
        · simp [tokenizer.fresh]
        · right
          simp
      · by_cases h3 : x = ':'
        · subst h3
          simp only [h1, h2, if_false, if_true]
          refine ⟨canon_fresh _ _ _ hxs, p.takeWhile IsSpace, [':'], ?_, rfl, ?_, ?_⟩
          · rw [pending_fresh]
            simpa using hsplit
          · simp [tokenizer.fresh]
          · right
            simp
        · simp only [h1, h2, h3, if_false]
          have hd : RuneError ∉ (x :: xs).dropWhile (inLiteral er) :=
            not_mem_dropWhile (inLiteral er) hq
          have hin : inLiteral er x = true := by
            cases er <;> simp [inLiteral, h1, h2, h3]
          refine ⟨canon_peeked _ _ _ hd, p.takeWhile IsSpace,
            (x :: xs).takeWhile (inLiteral er), ?_, rfl, ?_, ?_⟩
          · rw [pending_peeked _ _ _ hd, List.append_assoc,
              List.takeWhile_append_dropWhile]
            exact hsplit
          · rw [peeked_offset]
          · right
            simp [List.takeWhile_cons, hin]

theorem canon_newTokenizer (input : Str) (hr : RuneError ∉ input) :
    (newTokenizer input).Canon := by
  simp [newTokenizer, tokenizer.Canon, hr]

/-- After any number of `Token` calls on an input without U+FFFD, the
tokenizer has read a prefix of the input, its offset is the length of that
prefix and the rest of the input is still to be delivered. -/
theorem steps_invariant (input : Str) (n : Nat) :
    ∀ t : tokenizer, t.Canon → (∃ pre, input = pre ++ t.pending ∧ t.offset = pre.length) →
      ∃ t1, t.steps n = some t1 ∧ t1.Canon ∧
        ∃ pre, input = pre ++ t1.pending ∧ t1.offset = pre.length := by
  induction n with
  | zero => intro t hc hi; exact ⟨t, rfl, hc, hi⟩
  | succ n ih =>
    intro t hc hi
    obtain ⟨pre, hpre, hoff⟩ := hi
    have hnm := not_mem_pending t hc
    obtain ⟨hc1, ws, text, hsplit, _, hoff1, _⟩ :=
      tokenAt_spec t.pending t.expectRegexp t.offset hnm
    rw [tokenizer.steps, Token_canon t hc]
    simp only
    apply ih _ hc1
    refine ⟨pre ++ ws ++ text, ?_, ?_⟩
    · rw [hpre]
      conv_lhs => rw [hsplit]
      simp
    · rw [hoff1, hoff]
      simp only [List.length_append]
      push_cast
      ring

/-- Within as many `Token` calls as there are runes to deliver, the
tokenizer reaches a state in which `Token` returns the end-of-input token. -/
theorem steps_reach_eof (k : Nat) :
    ∀ t : tokenizer, t.Canon → t.pending.length ≤ k →
      ∃ n, n ≤ k ∧ ∃ t0 r t1, t.steps n = some t0 ∧ t0.Token = some (r, t1) ∧
        r.Err = some .EOF := by
  induction k with
  | zero =>
    intro t hc hk
    refine ⟨0, le_refl _, t, _, _, rfl, Token_canon t hc, ?_⟩
    have hp : t.pending = [] := List.length_eq_zero.mp (Nat.le_zero.mp hk)
    simp [hp, tokenAt]
  | succ k ih =>
    intro t hc hk
    have hnm := not_mem_pending t hc
    obtain ⟨hc1, ws, text, hsplit, _, _, hcase⟩ :=
      tokenAt_spec t.pending t.expectRegexp t.offset hnm
    rcases hcase with ⟨_, he, _⟩ | ⟨_, _, hne, _⟩
    · exact ⟨0, Nat.zero_le _, t, _, _, rfl, Token_canon t hc, he⟩
    · have hlen : (tokenAt t.pending t.expectRegexp t.offset).2.pending.length ≤ k := by
        have h := congrArg List.length hsplit
        have htext : 0 < text.length := List.length_pos.mpr hne
        simp only [List.length_append] at h
        omega
      obtain ⟨n, hn, t0, r, t1, hs, ht, he⟩ := ih _ hc1 hlen
      refine ⟨n + 1, Nat.succ_le_succ hn, t0, r, t1, ?_, ht, he⟩
      rw [tokenizer.steps, Token_canon t hc]
      exact hs

/-- C17: for every pattern string without U+FFFD (with or without
newlines), every call in a sequence of `Token` calls returns, and the token
it returns has line 1 and column one plus the number of runes of the input
before the token's first rune: the input is `pre`, then the token's text,
then the runes the tokenizer has still to deliver, and the column is
`len(pre) + 1`. The end-of-input token comes with `io.EOF` after at most
`len(input)` tokens, at column `len(input) + 1`. -/
theorem Token_positions (input : Str) (hr : RuneError ∉ input) :
    (∀ n, ∃ t r t1, (newTokenizer input).steps n = some t ∧ t.Token = some (r, t1)) ∧
    (∀ n t r t1, (newTokenizer input).steps n = some t → t.Token = some (r, t1) →
      r.Pos.line = 1 ∧
      ∃ pre text, input = pre ++ text ++ t1.pending ∧ r.Pos.col = pre.length + 1 ∧
        ((r.Err = none ∧ r.Lit = some text ∧ text ≠ []) ∨
          (r.Err = some .EOF ∧ r.Tok = .tEOF ∧ text = [] ∧ t1.pending = []))) ∧
    (∃ n, n ≤ input.length ∧ ∃ t t1, (newTokenizer input).steps n = some t ∧
      t.Token = some (⟨.tEOF, none, ⟨1, input.length + 1⟩, some .EOF⟩, t1)) := by
  have hc0 := canon_newTokenizer input hr
  have hi0 : ∃ pre, input = pre ++ (newTokenizer input).pending ∧
      (newTokenizer input).offset = pre.length :=
    ⟨[], by simp [newTokenizer, tokenizer.pending], by simp [newTokenizer]⟩
  have key : ∀ n t r t1, (newTokenizer input).steps n = some t → t.Token = some (r, t1) →
      r.Pos.line = 1 ∧
      ∃ pre text, input = pre ++ text ++ t1.pending ∧ r.Pos.col = pre.length + 1 ∧
        ((r.Err = none ∧ r.Lit = some text ∧ text ≠ []) ∨
          (r.Err = some .EOF ∧ r.Tok = .tEOF ∧ text = [] ∧ t1.pending = [])) := by
    intro n t r t1 hs ht
    obtain ⟨t0, hs0, hc, pre, hpre, hoff⟩ := steps_invariant input n _ hc0 hi0
    rw [hs] at hs0
    cases Option.some.inj hs0
    have hnm := not_mem_pending t hc
    obtain ⟨_, ws, text, hsplit, hpos, _, hcase⟩ :=
      tokenAt_spec t.pending t.expectRegexp t.offset hnm
    rw [Token_canon t hc] at ht
    have hrt := Option.some.inj ht
    rw [hrt] at hsplit hpos hcase
    simp only at hsplit hpos hcase
    refine ⟨by rw [hpos], pre ++ ws, text, ?_, ?_, ?_⟩
    · rw [hpre]
      conv_lhs => rw [hsplit]
      simp
    · rw [hpos, hoff]
      simp only [List.length_append]
      push_cast
      ring
    · rcases hcase with ⟨h1, h2, _, h4, h5⟩ | ⟨h1, h2, h3, _⟩
      · exact Or.inr ⟨h2, h1, h4, h5⟩
      · exact Or.inl ⟨h1, h2, h3⟩
  refine ⟨?_, key, ?_⟩
  · intro n
    obtain ⟨t, hs, hc, _⟩ := steps_invariant input n _ hc0 hi0
    exact ⟨t, _, _, hs, Token_canon t hc⟩
  · have hlen : (newTokenizer input).pending.length ≤ input.length := by
      simp [newTokenizer, tokenizer.pending]
    obtain ⟨n, hn, t, r, t1, hs, ht, he⟩ := steps_reach_eof input.length _ hc0 hlen
    refine ⟨n, hn, t, t1, hs, ?_⟩
    obtain ⟨hline, pre, text, hsplit, hcol, hcase⟩ := key n t r t1 hs ht
    rcases hcase with ⟨h1, _⟩ | ⟨_, h2, h3, h4⟩
    · rw [h1] at he
      exact absurd he (by simp)
    · have hin : input = pre := by
        rw [hsplit, h3, h4]
        simp
      have hlit : r.Lit = none := by
        obtain ⟨t0, hs0, hc, _⟩ := steps_invariant input n _ hc0 hi0
        rw [hs] at hs0
        cases Option.some.inj hs0
        have hnm := not_mem_pending t hc
        obtain ⟨_, _, _, _, _, _, hcase2⟩ :=
          tokenAt_spec t.pending t.expectRegexp t.offset hnm
        rw [Token_canon t hc] at ht
        have hrt := Option.some.inj ht
        rw [hrt] at hcase2
        simp only at hcase2
        rcases hcase2 with ⟨_, _, h, _⟩ | ⟨h, _⟩
        · exact h
        · rw [h] at he
          exact absurd he (by simp)
      rw [ht]
      obtain ⟨tok, lit, pos, err⟩ := r
      obtain ⟨line, col⟩ := pos
      simp only at hline hcol h2 he hlit
      subst hline h2 he hlit
      rw [hcol, ← hin]

/-- The input `/foo/bar/baz/{id}/view`: literal `/foo/bar/baz/` at (1,1),
`{` at (1,14), literal `id` at (1,15), `}` at (1,17), literal `/view` at
(1,18), end-of-input with `io.EOF` at (1,23). -/
theorem Token_positions_witness :
    (∃ n, n ≤ "/foo/bar/baz/{id}/view".toList.length ∧ ∃ t t1,
      (newTokenizer "/foo/bar/baz/{id}/view".toList).steps n = some t ∧
      t.Token = some (⟨.tEOF, none,
        ⟨1, "/foo/bar/baz/{id}/view".toList.length + 1⟩, some .EOF⟩, t1)) ∧
    (newTokenizer "/foo/bar/baz/{id}/view".toList).Tokens 10 =
      some [⟨.tLiteral, some "/foo/bar/baz/".toList, ⟨1, 1⟩, none⟩,
        ⟨.tOpenBrace, some ['{'], ⟨1, 14⟩, none⟩,
        ⟨.tLiteral, some "id".toList, ⟨1, 15⟩, none⟩,
        ⟨.tCloseBrace, some ['}'], ⟨1, 17⟩, none⟩,
        ⟨.tLiteral, some "/view".toList, ⟨1, 18⟩, none⟩,
        ⟨.tEOF, none, ⟨1, 23⟩, some .EOF⟩] :=
  ⟨(Token_positions "/foo/bar/baz/{id}/view".toList (by decide)).2.2, by decide⟩

/-! ## Literal runs on inputs without U+FFFD -/

theorem dropWhile_head_false (f : Char → Bool) (l : List Char) (h : Char) (tl : List Char)
    (hd : l.dropWhile f = h :: tl) : f h = false := by
  induction l with
  | nil => simp at hd
  | cons x xs ih =>
    rw [List.dropWhile_cons] at hd
    by_cases hx : f x = true
    · rw [if_pos hx] at hd
      exact ih hd
    · rw [if_neg hx] at hd
      have hxh : x = h := (List.cons.inj hd).1
      rw [← hxh]
      simpa using hx

theorem inLiteral_false (er : Bool) (h : Char) (hin : inLiteral er h = false) :
    h = ':' ∨ h = '{' ∨ h = '}' := by
  cases er with
  | true =>
    right; right
    simpa [inLiteral] using hin
  | false =>
    by_cases h1 : h = ':'
    · exact Or.inl h1
    · by_cases h2 : h = '{'
      · exact Or.inr (Or.inl h2)
      · by_cases h3 : h = '}'
        · exact Or.inr (Or.inr h3)
        · simp [inLiteral, h1, h2, h3] at hin

/-- The shape of `tokenAt` when the token is a literal. -/
theorem tokenAt_literal (p : List Char) (er : Bool) (off : Int)
    (hl : (tokenAt p er off).1.Tok = .tLiteral) :
    tokenAt p er off =
      (⟨.tLiteral, some ((p.dropWhile IsSpace).takeWhile (inLiteral er)),
          ⟨1, off + (p.takeWhile IsSpace).length + 1⟩, none⟩,
        tokenizer.peeked ((p.dropWhile IsSpace).dropWhile (inLiteral er)) false
          (off + (p.takeWhile IsSpace).length +
            ((p.dropWhile IsSpace).takeWhile (inLiteral er)).length)) := by
  unfold tokenAt at hl ⊢
  cases hq : p.dropWhile IsSpace with
  | nil => simp [hq] at hl
  | cons x xs =>
    simp only [hq] at hl ⊢
    by_cases h1 : x = '{'
    · simp [h1] at hl
    · by_cases h2 : x = '}'
      · simp [h2] at hl
      · by_cases h3 : x = ':'
        · simp [h3] at hl
        · simp only [h1, h2, h3, if_false]

/-- The shape of `tokenAt` when the token is a colon: regex-body mode is
switched on. -/
theorem tokenAt_colon (p : List Char) (er : Bool) (off : Int)
    (hl : (tokenAt p er off).1.Tok = .tColon) :
    (tokenAt p er off).2.expectRegexp = true := by
  unfold tokenAt at hl ⊢
  cases hq : p.dropWhile IsSpace with
  | nil => simp [hq] at hl
  | cons x xs =>
    simp only [hq] at hl ⊢
    by_cases h1 : x = '{'
    · simp [h1] at hl
    · by_cases h2 : x = '}'
      · subst h2
        simp [h1] at hl
      · by_cases h3 : x = ':'
        · subst h3
          simp [h1, h2, tokenizer.fresh]
        · simp [h1, h2, h3] at hl

/-- The token that `tokenAt` returns when the runes to be delivered are
none, or begin with a rune that ends a literal run, is not a literal. -/
theorem tokenAt_after_literal (d : List Char) (er : Bool) (off : Int)
    (hd : ∀ h tl, d = h :: tl → inLiteral er h = false) :
    (tokenAt d false off).1.Tok ≠ .tLiteral := by
  cases d with
  | nil => simp [tokenAt]
  | cons h tl =>
    have hin := inLiteral_false er h (hd h tl rfl)
    rcases hin with e | e | e <;> subst e <;> simp [tokenAt, IsSpace]

/-- On an input without U+FFFD a literal token is never followed by a
literal token. -/
theorem Token_no_adjacent_literals (input : Str) (hr : RuneError ∉ input)
    (n : Nat) (t t1 t2 : tokenizer) (r1 r2 : TokReturn)
    (hs : (newTokenizer input).steps n = some t) (h1 : t.Token = some (r1, t1))
    (h2 : t1.Token = some (r2, t2)) (hl : r1.Tok = .tLiteral) : r2.Tok ≠ .tLiteral := by
  obtain ⟨t0, hs0, hc, _⟩ := steps_invariant input n _ (canon_newTokenizer input hr)
    ⟨[], by simp [newTokenizer, tokenizer.pending], by simp [newTokenizer]⟩
  rw [hs] at hs0
  cases Option.some.inj hs0
  have hnm := not_mem_pending t hc
  rw [Token_canon t hc] at h1
  have h1e := Option.some.inj h1
  have hl1 : (tokenAt t.pending t.expectRegexp t.offset).1.Tok = .tLiteral := by
    rw [h1e]; exact hl
  have hform := tokenAt_literal _ _ _ hl1
  rw [h1e] at hform
  have ht1 : t1 = tokenizer.peeked
      ((t.pending.dropWhile IsSpace).dropWhile (inLiteral t.expectRegexp)) false
      (t.offset + (t.pending.takeWhile IsSpace).length +
        ((t.pending.dropWhile IsSpace).takeWhile (inLiteral t.expectRegexp)).length) :=
    congrArg Prod.snd hform
  have hd : RuneError ∉ (t.pending.dropWhile IsSpace).dropWhile (inLiteral t.expectRegexp) :=
    not_mem_dropWhile _ (not_mem_dropWhile _ hnm)
  have hc1 : t1.Canon := by rw [ht1]; exact canon_peeked _ _ _ hd
  have hp1 : t1.pending = (t.pending.dropWhile IsSpace).dropWhile (inLiteral t.expectRegexp) := by
    rw [ht1]; exact pending_peeked _ _ _ hd
  have he1 : t1.expectRegexp = false := by rw [ht1]; exact peeked_expectRegexp _ _ _
  rw [Token_canon t1 hc1, hp1, he1] at h2
  have h2e := Option.some.inj h2
  have := tokenAt_after_literal
    ((t.pending.dropWhile IsSpace).dropWhile (inLiteral t.expectRegexp)) t.expectRegexp
    t1.offset (fun h tl e => dropWhile_head_false _ _ h tl e)
  rw [h2e] at this
  exact this

/-- On an input without U+FFFD: a colon token switches regex-body mode on;
a literal token read in that mode runs up to the first `}` or the end of
the input (colons and opening braces stay inside it); a literal token read
outside that mode ends before the first `:`, `{` or `}`; after a literal
token the mode is off. -/
theorem Token_literal_extent (input : Str) (hr : RuneError ∉ input)
    (n : Nat) (t t1 : tokenizer) (r : TokReturn)
    (hs : (newTokenizer input).steps n = some t) (h1 : t.Token = some (r, t1)) :
    (r.Tok = .tColon → t1.expectRegexp = true) ∧
    (r.Tok = .tLiteral → t1.expectRegexp = false ∧
      ∃ ws text rest, t.pending = ws ++ text ++ rest ∧ (∀ c ∈ ws, IsSpace c = true) ∧
        r.Lit = some text ∧ t1.pending = rest ∧
        (t.expectRegexp = true →
          '}' ∉ text ∧ (rest = [] ∨ rest.head? = some '}')) ∧
        (t.expectRegexp = false →
          (':' ∉ text ∧ '{' ∉ text ∧ '}' ∉ text) ∧
          (rest = [] ∨ rest.head? = some ':' ∨ rest.head? = some '{' ∨
            rest.head? = some '}'))) := by
  obtain ⟨t0, hs0, hc, _⟩ := steps_invariant input n _ (canon_newTokenizer input hr)
    ⟨[], by simp [newTokenizer, tokenizer.pending], by simp [newTokenizer]⟩
  rw [hs] at hs0
  cases Option.some.inj hs0
  have hnm := not_mem_pending t hc
  rw [Token_canon t hc] at h1
  have h1e := Option.some.inj h1
  constructor
  · intro hcol
    have h := tokenAt_colon t.pending t.expectRegexp t.offset (by rw [h1e]; exact hcol)
    rw [h1e] at h
    exact h
  · intro hl
    have hform := tokenAt_literal t.pending t.expectRegexp t.offset (by rw [h1e]; exact hl)
    rw [h1e] at hform
    have hr1 := congrArg Prod.fst hform
    have ht1 := congrArg Prod.snd hform
    simp only at hr1 ht1
    have hd : RuneError ∉ (t.pending.dropWhile IsSpace).dropWhile (inLiteral t.expectRegexp) :=
      not_mem_dropWhile _ (not_mem_dropWhile _ hnm)
    have hmem : ∀ c ∈ (t.pending.dropWhile IsSpace).takeWhile (inLiteral t.expectRegexp),
        inLiteral t.expectRegexp c = true := fun c hc => List.mem_takeWhile_imp hc
    have hhead : ∀ h tl,
        (t.pending.dropWhile IsSpace).dropWhile (inLiteral t.expectRegexp) = h :: tl →
        inLiteral t.expectRegexp h = false := fun h tl e => dropWhile_head_false _ _ h tl e
    refine ⟨by rw [ht1]; exact peeked_expectRegexp _ _ _, t.pending.takeWhile IsSpace,
      (t.pending.dropWhile IsSpace).takeWhile (inLiteral t.expectRegexp),
      (t.pending.dropWhile IsSpace).dropWhile (inLiteral t.expectRegexp), ?_, ?_, ?_, ?_, ?_, ?_⟩
    · rw [List.append_assoc, List.takeWhile_append_dropWhile,
        List.takeWhile_append_dropWhile]
    · exact fun c hc => List.mem_takeWhile_imp hc
    · rw [hr1]
    · rw [ht1]
      exact pending_peeked _ _ _ hd
    · intro her
      rw [her] at hhead
      constructor
      · intro hm
        have := hmem _ hm
        rw [her] at this
        simp [inLiteral] at this
      · cases hrest : (t.pending.dropWhile IsSpace).dropWhile (inLiteral t.expectRegexp) with
        | nil => exact Or.inl rfl
        | cons h tl =>
          right
          rw [her] at hrest
          have := hhead h tl hrest
          simp [inLiteral] at this
          simp [this]
    · intro her
      rw [her] at hhead
      refine ⟨⟨?_, ?_, ?_⟩, ?_⟩
      · intro hm
        have := hmem _ hm
        rw [her] at this
        simp [inLiteral] at this
      · intro hm
        have := hmem _ hm
        rw [her] at this
        simp [inLiteral] at this
      · intro hm
        have := hmem _ hm
        rw [her] at this
        simp [inLiteral] at this
      · cases hrest : (t.pending.dropWhile IsSpace).dropWhile (inLiteral t.expectRegexp) with
        | nil => exact Or.inl rfl
        | cons h tl =>
          right
          rw [her] at hrest
          have hin := inLiteral_false false h (hhead h tl hrest)
          rcases hin with e | e | e
          · exact Or.inl (by simp [e])
          · exact Or.inr (Or.inl (by simp [e]))
          · exact Or.inr (Or.inr (by simp [e]))

/-! ## Newlines and U+FFFD in the pattern -/

/-- C16: on the pattern made of `a`, a newline and `{b}`, the token `{` has
the runes `a` and newline before it, so its first rune is on line 2 at
column 1; `Token` reports it at line 1, column 3, because `line` and
`lineHead` are never updated. -/
theorem Token_position_after_newline :
    "a\n\x7bb\x7d".toList = "a\n".toList ++ '{' :: "b\x7d".toList ∧
    "a\n".toList.count '\n' = 1 ∧
    (newTokenizer "a\n\x7bb\x7d".toList).Tokens 10 =
      some [⟨.tLiteral, some "a\n".toList, ⟨1, 1⟩, none⟩,
        ⟨.tOpenBrace, some ['{'], ⟨1, 3⟩, none⟩,
        ⟨.tLiteral, some "b".toList, ⟨1, 4⟩, none⟩,
        ⟨.tCloseBrace, some ['}'], ⟨1, 5⟩, none⟩,
        ⟨.tEOF, none, ⟨1, 6⟩, some .EOF⟩] := by
  decide

/-- C18: on the pattern `a`, U+FFFD, `b` the tokenizer returns two literal
tokens in a row, `a` and `b`: the U+FFFD rune ends the first literal and is
then dropped. -/
theorem Token_adjacent_literals :
    (newTokenizer ['a', RuneError, 'b']).Tokens 10 =
      some [⟨.tLiteral, some ['a'], ⟨1, 1⟩, none⟩,
        ⟨.tLiteral, some ['b'], ⟨1, 2⟩, none⟩,
        ⟨.tEOF, none, ⟨1, 3⟩, some .EOF⟩] := by
  decide

/-- C19: on the pattern `{id:a`, U+FFFD, `b}` the literal token that follows
the colon is `a`: it stops at the U+FFFD rune and not at the first `}`; the
rest of the regex body, `b`, comes as a second literal token. (On
`/foo/bar/baz/{id:^[0-9]+}/view`, which has no U+FFFD, the body `^[0-9]+` is
one literal token.) -/
theorem Token_regexp_body_cut :
    (newTokenizer ("\x7bid:a".toList ++ RuneError :: "b\x7d".toList)).Tokens 10 =
      some [⟨.tOpenBrace, some ['{'], ⟨1, 1⟩, none⟩,
        ⟨.tLiteral, some "id".toList, ⟨1, 2⟩, none⟩,
        ⟨.tColon, some [':'], ⟨1, 4⟩, none⟩,
        ⟨.tLiteral, some ['a'], ⟨1, 5⟩, none⟩,
        ⟨.tLiteral, some ['b'], ⟨1, 6⟩, none⟩,
        ⟨.tCloseBrace, some ['}'], ⟨1, 7⟩, none⟩,
        ⟨.tEOF, none, ⟨1, 8⟩, some .EOF⟩] ∧
    (newTokenizer "/foo/bar/baz/\x7bid:^[0-9]+\x7d/view".toList).Tokens 10 =
      some [⟨.tLiteral, some "/foo/bar/baz/".toList, ⟨1, 1⟩, none⟩,
        ⟨.tOpenBrace, some ['{'], ⟨1, 14⟩, none⟩,
        ⟨.tLiteral, some "id".toList, ⟨1, 15⟩, none⟩,
        ⟨.tColon, some [':'], ⟨1, 17⟩, none⟩,
        ⟨.tLiteral, some "^[0-9]+".toList, ⟨1, 18⟩, none⟩,
        ⟨.tCloseBrace, some ['}'], ⟨1, 25⟩, none⟩,
        ⟨.tLiteral, some "/view".toList, ⟨1, 26⟩, none⟩,
        ⟨.tEOF, none, ⟨1, 31⟩, some .EOF⟩] := by
  decide

/-! ## Tokenization is lossless -/

theorem takeWhile_dropWhile_no_space (p : List Char) (hw : ∀ c ∈ p, IsSpace c = false) :
    p.takeWhile IsSpace = [] ∧ p.dropWhile IsSpace = p := by
  cases p with
  | nil => simp
  | cons x xs =>
    have hx := hw x (by simp)
    simp [List.takeWhile_cons, List.dropWhile_cons, hx]

/-- One token on runes without white space and without U+FFFD: the runes to
be delivered are the text of the token followed by the runes left for later;
the text is empty only for the end-of-input token. -/
theorem tokenAt_no_space (p : List Char) (er : Bool) (off : Int) (hp : RuneError ∉ p)
    (hw : ∀ c ∈ p, IsSpace c = false) :
    (tokenAt p er off).2.Canon ∧
    (((tokenAt p er off).1.Tok = .tEOF ∧ (tokenAt p er off).1.Err = some .EOF ∧
        (tokenAt p er off).1.Lit = none ∧ p = []) ∨
      ((tokenAt p er off).1.Err = none ∧ (tokenAt p er off).1.Tok ≠ .tEOF ∧
        ∃ text, (tokenAt p er off).1.Lit = some text ∧ text ≠ [] ∧
          p = text ++ (tokenAt p er off).2.pending)) := by
  obtain ⟨hc, ws, text, hsplit, hpos, _, hcase⟩ := tokenAt_spec p er off hp
  obtain ⟨htw, _⟩ := takeWhile_dropWhile_no_space p hw
  have hpos2 : (tokenAt p er off).1.Pos = ⟨1, off + (p.takeWhile IsSpace).length + 1⟩ := by
    unfold tokenAt
    cases p.dropWhile IsSpace with
    | nil => rfl
    | cons x xs =>
      simp only
      split
      · rfl
      · split
        · rfl
        · split
          · rfl
          · rfl
  have hws : ws = [] := by
    rw [hpos2, htw] at hpos
    have hcol := congrArg position.col hpos
    simp at hcol
    exact hcol
  subst hws
  rw [List.nil_append] at hsplit
  refine ⟨hc, ?_⟩
  rcases hcase with ⟨h1, h2, h3, h4, h5⟩ | ⟨h1, h2, h3, h4⟩
  · left
    refine ⟨h1, h2, h3, ?_⟩
    rw [hsplit, h4, h5]
    rfl
  · right
    exact ⟨h1, h4, text, h2, h3, hsplit⟩

/-- The token sequence from a tokenizer state whose undelivered runes have
no white space and no U+FFFD: the texts of the tokens, put together, are the
undelivered runes; the sequence ends with the first end-of-input token. -/
theorem Tokens_no_space (k : Nat) :
    ∀ t : tokenizer, t.Canon → (∀ c ∈ t.pending, IsSpace c = false) →
      t.pending.length ≤ k →
      ∃ toks, t.Tokens (k + 1) = some toks ∧
        (toks.filterMap (fun r => r.Lit)).flatten = t.pending ∧
        (∀ r ∈ toks, r.Tok = .tLiteral → ∃ text, r.Lit = some text ∧ text ≠ []) ∧
        ∃ init last, toks = init ++ [last] ∧ last.Tok = .tEOF ∧ last.Err = some .EOF ∧
          ∀ r ∈ init, r.Tok ≠ .tEOF := by
  induction k with
  | zero =>
    intro t hc hw hk
    have hp : t.pending = [] := List.length_eq_zero.mp (Nat.le_zero.mp hk)
    have hnm := not_mem_pending t hc
    obtain ⟨_, hcase⟩ := tokenAt_no_space t.pending t.expectRegexp t.offset hnm hw
    rcases hcase with ⟨h1, h2, h3, _⟩ | ⟨_, _, text, _, hne, hsplit⟩
    · refine ⟨[(tokenAt t.pending t.expectRegexp t.offset).1], ?_, ?_, ?_, ?_⟩
      · rw [tokenizer.Tokens, Token_canon t hc]
        simp only [h2]
      · simp only [List.filterMap_cons, h3, List.filterMap_nil, List.flatten_nil]
        exact hp.symm
      · intro r hr hl
        rw [List.mem_singleton] at hr
        rw [hr, h1] at hl
        exact absurd hl (by decide)
      · exact ⟨[], _, rfl, h1, h2, by simp⟩
    · rw [hp] at hsplit
      have hl0 := congrArg List.length hsplit
      simp only [List.length_nil, List.length_append] at hl0
      exact absurd (List.length_eq_zero.mp (by omega)) hne
  | succ k ih =>
    intro t hc hw hk
    have hnm := not_mem_pending t hc
    obtain ⟨hc1, hcase⟩ := tokenAt_no_space t.pending t.expectRegexp t.offset hnm hw
    rcases hcase with ⟨h1, h2, h3, hp⟩ | ⟨h1, h2, text, h3, hne, hsplit⟩
    · refine ⟨[(tokenAt t.pending t.expectRegexp t.offset).1], ?_, ?_, ?_, ?_⟩
      · rw [tokenizer.Tokens, Token_canon t hc]
        simp only [h2]
      · simp only [List.filterMap_cons, h3, List.filterMap_nil, List.flatten_nil]
        exact hp.symm
      · intro r hr hl
        rw [List.mem_singleton] at hr
        rw [hr, h1] at hl
        exact absurd hl (by decide)
      · exact ⟨[], _, rfl, h1, h2, by simp⟩
    · have hw1 : ∀ c ∈ (tokenAt t.pending t.expectRegexp t.offset).2.pending,
          IsSpace c = false := by
        intro c hcm
        apply hw c
        rw [hsplit]
        exact List.mem_append_right _ hcm
      have hlen : (tokenAt t.pending t.expectRegexp t.offset).2.pending.length ≤ k := by
        have h := congrArg List.length hsplit
        have htext : 0 < text.length := List.length_pos.mpr hne
        simp only [List.length_append] at h
        omega
      obtain ⟨toks, htoks, hcat, hlit, init, last, hinit, hl1, hl2, hl3⟩ :=
        ih _ hc1 hw1 hlen
      refine ⟨(tokenAt t.pending t.expectRegexp t.offset).1 :: toks, ?_, ?_, ?_, ?_⟩
      · rw [tokenizer.Tokens, Token_canon t hc]
        simp only [h1, htoks, Option.map_some']
      · simp only [List.filterMap_cons, h3, List.flatten_cons, hcat]
        exact hsplit.symm
      · intro r hr hl
        rcases List.mem_cons.mp hr with e | e
        · exact ⟨text, by rw [e]; exact h3, hne⟩
        · exact hlit r e hl
      · refine ⟨(tokenAt t.pending t.expectRegexp t.offset).1 :: init, last, ?_, hl1, hl2, ?_⟩
        · rw [hinit]
          rfl
        · intro r hr
          rcases List.mem_cons.mp hr with e | e
          · rw [e]
            exact h2
          · exact hl3 r e

/-- C21: tokenization is lossless. For every pattern string with no
white-space rune and no U+FFFD rune, the successive `Token` calls return a
sequence of tokens that ends with the first end-of-input token; the texts of
these tokens, put together in order, are the pattern string, and every
literal token among them has a non-empty text. -/
theorem Tokens_lossless (input : Str) (hr : RuneError ∉ input)
    (hw : ∀ c ∈ input, IsSpace c = false) :
    ∃ toks, (newTokenizer input).Tokens (input.length + 1) = some toks ∧
      (toks.filterMap (fun r => r.Lit)).flatten = input ∧
      (∀ r ∈ toks, r.Tok = .tLiteral → ∃ text, r.Lit = some text ∧ text ≠ []) ∧
      ∃ init last, toks = init ++ [last] ∧ last.Tok = .tEOF ∧ last.Err = some .EOF ∧
        ∀ r ∈ init, r.Tok ≠ .tEOF := by
  have hp : (newTokenizer input).pending = input := by
    simp [newTokenizer, tokenizer.pending]
  have h := Tokens_no_space input.length (newTokenizer input)
    (canon_newTokenizer input hr) (by rw [hp]; exact hw) (by rw [hp])
  rw [hp] at h
  exact h

/-- The pattern `/foo/bar/baz/{id:^[0-9]+}/view`: the texts of its tokens
are `/foo/bar/baz/`, `{`, `id`, `:`, `^[0-9]+`, `}`, `/view`, which put
together give the pattern. -/
theorem Tokens_lossless_witness :
    (∃ toks, (newTokenizer "/foo/bar/baz/\x7bid:^[0-9]+\x7d/view".toList).Tokens
        ("/foo/bar/baz/\x7bid:^[0-9]+\x7d/view".toList.length + 1) = some toks ∧
      (toks.filterMap (fun r => r.Lit)).flatten =
        "/foo/bar/baz/\x7bid:^[0-9]+\x7d/view".toList ∧
      (∀ r ∈ toks, r.Tok = .tLiteral → ∃ text, r.Lit = some text ∧ text ≠ []) ∧
      ∃ init last, toks = init ++ [last] ∧ last.Tok = .tEOF ∧ last.Err = some .EOF ∧
        ∀ r ∈ init, r.Tok ≠ .tEOF) ∧
    ((newTokenizer "/foo/bar/baz/\x7bid:^[0-9]+\x7d/view".toList).Tokens 31).map
        (fun toks => toks.filterMap (fun r => r.Lit)) =
      some ["/foo/bar/baz/".toList, ['{'], "id".toList, [':'], "^[0-9]+".toList, ['}'],
        "/view".toList] :=
  ⟨Tokens_lossless "/foo/bar/baz/\x7bid:^[0-9]+\x7d/view".toList (by decide) (by decide),
    by decide⟩

end pathmatch
